import Mathlib

/-!
Verification of the rforests LambdaMART training engine.

The source is embedded shallowly: the Rust `f64` values are modelled as
exact rationals (`ℚ`), so every algebraic claim is settled in exact
arithmetic, as the claims themselves demand.  Rust's `f64::MAX` sentinel
becomes the exact rational `f64Max`; `f64::exp` enters as an abstract
function parameter; stateful code is explicit state passing over lists;
code paths that panic in Rust (out-of-bounds indexing, `assert!`,
`Option::unwrap` on `None`) are modelled with `Option`, `none` standing
for the panic.
-/

/-- Rust `std::f64::MAX` = (2 - 2⁻⁵²)·2¹⁰²³ = 2¹⁰²⁴ - 2⁹⁷¹, as an exact
rational (spelled as a numeral so that it evaluates without unary
exponentiation).  It is the sentinel threshold the source pushes at the
end of every threshold vector (`thresholds.push(std::f64::MAX)`). -/
def f64Max : ℚ := 179769313486231570814527423731704356798070567525844996598917476803157260780028538760589558632766878171540458953514382464234321326889464182768467546703537516986049910576551282076245490090389328944075868508455133942304583236903222948165808559332123348274797826204144723168738177180919299881250404026184124858368

/-- Embedding of `Instance` (src/train/dataset.rs): a label, a query id and
a dense 1-based feature-value vector. -/
structure Instance where
  label : ℚ
  qid : ℕ
  values : List ℚ
deriving DecidableEq, Repr, Inhabited

/-- Embedding of `Instance::value` (src/train/dataset.rs): feature ids are
1-based; an id beyond the stored length yields 0 (`get(id-1).map_or(0.0, ..)`).
Callers only pass `id ≥ 1`. -/
def Instance.value (ins : Instance) (id : ℕ) : ℚ :=
  ins.values.getD (id - 1) 0

/-- Stable ascending sort of `(index, value)` pairs, embedding
`indexed_values.sort_by(|&(_, a), &(_, b)| a.partial_cmp(&b).unwrap_or(Less))`
from `ThresholdMap::new` (src/train/lambdamart/training_set.rs).  Rust's
`sort_by` is a stable sort, and a stable sort under a total preorder is a
unique function of its input, so it is embedded as insertion sort (also
stable); over `ℚ` the `unwrap_or(Less)` NaN case cannot arise. -/
def sortIndexed (values : List ℚ) : List (ℕ × ℚ) :=
  values.enum.insertionSort (fun a b => a.2 ≤ b.2)

instance : IsTotal (ℕ × ℚ) (fun a b => a.2 ≤ b.2) :=
  ⟨fun a b => le_total a.2 b.2⟩

instance : IsTrans (ℕ × ℚ) (fun a b => a.2 ≤ b.2) :=
  ⟨fun _ _ _ h1 h2 => le_trans h1 h2⟩

/-- Embedding of `Vec::dedup` as used on the sorted value vector: removes
consecutive duplicates, keeping one element per run of equal values
(`Vec::dedup` keeps the run's first element; as the elements of a run are
equal values, keeping the run's last yields the same value list and is
structurally recursive). -/
def dedupConsec : List ℚ → List ℚ
  | [] => []
  | a :: rest =>
    match rest with
    | [] => [a]
    | b :: _ => if a = b then dedupConsec rest else a :: dedupConsec rest

/-- Embedding of `ThresholdMap` (src/train/lambdamart/training_set.rs):
ascending thresholds plus a map from instance index to threshold index. -/
structure ThresholdMap where
  thresholds : List ℚ
  map : List ℕ
deriving DecidableEq, Repr

/-- Embedding of the associated function `ThresholdMap::thresholds`
(src/train/lambdamart/training_set.rs lines 35-54): dedup the sorted
values; if more than `thresholds_count` remain, replace them by the grid
`min + n·(max-min)/thresholds_count` for `n = 0..thresholds_count-1`;
finally push the `f64::MAX` sentinel. -/
def ThresholdMap.mkThresholds (sorted_values : List ℚ) (thresholds_count : ℕ) :
    List ℚ :=
  let t0 := dedupConsec sorted_values
  let t1 :=
    if thresholds_count < t0.length then
      let mx := t0.getLast?.getD 0
      let mn := t0.headD 0
      let step := (mx - mn) / (thresholds_count : ℚ)
      (List.range thresholds_count).map (fun (n : ℕ) => mn + (n : ℚ) * step)
    else t0
  t1 ++ [f64Max]

/-- The assignment scan of `ThresholdMap::new`: walk the thresholds in
order, and for each threshold consume the (ascending) remaining values
until one exceeds it (`if value > threshold { break; }`), recording
`map[value_index] = threshold_index` for each consumed value.  Returns
the list of `(value index, threshold index)` assignments made. -/
def assignAux : List ℚ → ℕ → List (ℕ × ℚ) → List (ℕ × ℕ)
  | [], _, _ => []
  | t :: ts, j, vs =>
    (vs.takeWhile (fun p => decide (p.2 ≤ t))).map (fun p => (p.1, j))
      ++ assignAux ts (j + 1) (vs.dropWhile (fun p => decide (p.2 ≤ t)))

/-- Embedding of `ThresholdMap::new`
(src/train/lambdamart/training_set.rs lines 57-89): sort the indexed
values, build the thresholds, zero-initialize `map` (`resize(nvalues, 0)`)
and run the assignment scan. -/
def ThresholdMap.new (values : List ℚ) (thresholds_count : ℕ) : ThresholdMap :=
  let indexed_values := sortIndexed values
  let sorted_values := indexed_values.map (fun p => p.2)
  let ts := ThresholdMap.mkThresholds sorted_values thresholds_count
  let assigns := assignAux ts 0 indexed_values
  { thresholds := ts
    map := assigns.foldl (fun m p => m.set p.1 p.2)
      (List.replicate values.length 0) }

/-- One bin of the histogram of `ThresholdMap::histogram`
(src/train/lambdamart/training_set.rs): `(threshold, count, sum, squared_sum)`. -/
structure HistBin where
  threshold : ℚ
  count : ℕ
  sum : ℚ
  sumsq : ℚ
deriving DecidableEq, Repr

/-- The accumulation loop of `ThresholdMap::histogram`: for each
`(id, feature_value, target)` tuple, look up `map[id]` (out of bounds is a
Rust panic, modelled `none`), check the `assert!(feature_value <= threshold)`
(failure modelled `none`; the bin list is built from `thresholds`, so
`hist[j].threshold = thresholds[j]`), and add `1 / target / target²` to
bin `j`. -/
def histAccum (tm : ThresholdMap) :
    List (ℕ × ℚ × ℚ) → List HistBin → Option (List HistBin)
  | [], hist => some hist
  | (id, fv, target) :: rest, hist =>
    match tm.map[id]? with
    | none => none
    | some j =>
      match hist[j]? with
      | none => none
      | some b =>
        if fv ≤ b.threshold then
          histAccum tm rest
            (hist.set j
              ⟨b.threshold, b.count + 1, b.sum + target,
                b.sumsq + target * target⟩)
        else none

/-- The prefix-sum pass of `ThresholdMap::histogram`
(`for i in 1..hist.len() { hist[i] += hist[i-1] }`), written with an
explicit carry: starting from carry 0 the first bin is unchanged and each
later bin accumulates everything before it. -/
def cumulate : ℕ → ℚ → ℚ → List HistBin → List HistBin
  | _, _, _, [] => []
  | c, s, q, b :: rest =>
    ⟨b.threshold, c + b.count, s + b.sum, q + b.sumsq⟩ ::
      cumulate (c + b.count) (s + b.sum) (q + b.sumsq) rest

/-- Embedding of `ThresholdMap::histogram`
(src/train/lambdamart/training_set.rs lines 122-150): initialize one zero
bin per threshold, accumulate the tuples, then prefix-sum across bins.
`none` models the Rust panics (index out of bounds, failed assert). -/
def ThresholdMap.histogram (tm : ThresholdMap) (input : List (ℕ × ℚ × ℚ)) :
    Option (List HistBin) :=
  (histAccum tm input (tm.thresholds.map (fun t => ⟨t, 0, 0, 0⟩))).map
    (cumulate 0 0 0)

/-- Embedding of the `Measure`/`MetricScorer` collaborator interface
(spec section 4.H): a truncation level `get_k()` and the swap-delta table
`delta(ranked_labels)`, modelled as a total function of the ranked labels
and the two rank positions (the source's `Vec<Vec<f64>>` indexed
`[m][n]`). -/
structure Measure where
  k : ℕ
  delta : List ℚ → ℕ → ℕ → ℚ

/-- Embedding of `TrainingSet` (src/train/lambdamart/training_set.rs):
borrowed dataset plus the mutable per-instance model scores, lambdas and
weights, and one `ThresholdMap` per feature.  `nfeatures` is carried from
the `DataSet` (src/train/dataset.rs) to drive `fid_iter = 1..=nfeatures`. -/
structure TrainingSet where
  dataset : List Instance
  nfeatures : ℕ
  model_scores : List ℚ
  lambdas : List ℚ
  weights : List ℚ
  threshold_maps : List ThresholdMap

/-- Embedding of `TrainingSet::new` (src/train/lambdamart/training_set.rs
lines 191-228): model scores, lambdas and weights start at zero; one
`ThresholdMap` is built per feature id from that feature's value column. -/
def TrainingSet.new (ds : List Instance) (nfeat : ℕ) (thresholds_count : ℕ) :
    TrainingSet :=
  { dataset := ds
    nfeatures := nfeat
    model_scores := List.replicate ds.length 0
    lambdas := List.replicate ds.length 0
    weights := List.replicate ds.length 0
    threshold_maps := (List.range' 1 nfeat).map
      (fun fid => ThresholdMap.new (ds.map (fun ins => ins.value fid))
        thresholds_count) }

/-- The scan underlying `DataSet::query_iter`: walking the remaining
instances while extending the current run `(qid, start, len)`; a qid
change closes the current group and starts a new run. -/
def qiGo : List Instance → ℕ → ℕ → ℕ → List (ℕ × List ℕ)
  | [], qid, start, len => [(qid, List.range' start len)]
  | y :: ys, qid, start, len =>
    if y.qid = qid then qiGo ys qid start (len + 1)
    else (qid, List.range' start len) :: qiGo ys y.qid (start + len) 1

/-- Embedding of `DataSet::query_iter` / `QueryIter::next`
(src/train/dataset.rs lines 383-405): starting at position `i`, emit each
maximal contiguous run of instances sharing a qid as that qid together
with the run's index range. -/
def queryIter (d : List Instance) (i : ℕ) : List (ℕ × List ℕ) :=
  match d with
  | [] => []
  | x :: xs => qiGo xs x.qid i 1

/-- The per-query rank list of `update_lambdas_weights`
(src/train/lambdamart/training_set.rs lines 332-346): map each instance
index of the query to `(index, label, model_score)` and stable-sort
descending by model score (`score2.partial_cmp(&score1).unwrap_or(Equal)`;
over `ℚ` the NaN case cannot arise).  As in `sortIndexed`, the stable
Rust sort is embedded as the (stable) insertion sort. -/
def rankList (d : List Instance) (ms : List ℚ) (idxs : List ℕ) :
    List (ℕ × ℚ × ℚ) :=
  (idxs.map (fun i => (i, (d.getD i default).label, ms.getD i 0))).insertionSort
    (fun a b => b.2.2 ≤ a.2.2)

/-- One pair update of `update_lambdas_weights`
(src/train/lambdamart/training_set.rs lines 368-377):
`ρ = 1/(1 + exp(score1 - score2))`, `λ = |Δ|·ρ`, `w = ρ·(1-ρ)·|Δ|`, then
`lambdas[i1] += λ; weights[i1] += w; lambdas[i2] -= λ; weights[i2] += w`.
State is the pair (lambdas, weights). -/
def pairUpdate (ex : ℚ → ℚ) (dv : ℚ) (i1 i2 : ℕ) (s1 s2 : ℚ)
    (st : List ℚ × List ℚ) : List ℚ × List ℚ :=
  let rho := 1 / (1 + ex (s1 - s2))
  let lam := dv * rho
  let w := rho * (1 - rho) * dv
  let l1 := st.1.set i1 (st.1.getD i1 0 + lam)
  let w1 := st.2.set i1 (st.2.getD i1 0 + w)
  let l2 := l1.set i2 (l1.getD i2 0 - lam)
  let w2 := w1.set i2 (w1.getD i2 0 + w)
  (l2, w2)

/-- The inner pair loop of `update_lambdas_weights`
(src/train/lambdamart/training_set.rs lines 357-378), exactly as the
source: iterate the enumerated rank list; `break` out (stop) as soon as
`metric_index1 > k && metric_index2 > k`; `continue` when
`label1 <= label2`; otherwise apply the pair update with
`|Δ[m][n]|`. -/
def innerCode (k : ℕ) (ex : ℚ → ℚ) (dm : ℕ → ℕ → ℚ) (m : ℕ) (e1 : ℕ × ℚ × ℚ) :
    List (ℕ × (ℕ × ℚ × ℚ)) → List ℚ × List ℚ → List ℚ × List ℚ
  | [], st => st
  | (n, e2) :: rest, st =>
    if k < m ∧ k < n then st
    else
      innerCode k ex dm m e1 rest
        (if e1.2.1 ≤ e2.2.1 then st
         else pairUpdate ex |dm m n| e1.1 e2.1 e1.2.2 e2.2.2 st)

/-- Per-query body of `update_lambdas_weights`
(src/train/lambdamart/training_set.rs lines 328-379): build the rank
list, take the metric's delta of the ranked labels, and run the double
loop over enumerated rank positions. -/
def processQuery (M : Measure) (ex : ℚ → ℚ) (d : List Instance) (ms : List ℚ)
    (idxs : List ℕ) (st : List ℚ × List ℚ) : List ℚ × List ℚ :=
  let rl := rankList d ms idxs
  let dm := M.delta (rl.map (fun e => e.2.1))
  rl.enum.foldl (fun st me => innerCode M.k ex dm me.1 me.2 rl.enum st) st

/-- Embedding of `TrainingSet::update_lambdas_weights`
(src/train/lambdamart/training_set.rs lines 319-381): zero the lambda and
weight vectors, then process every query of `query_iter` in order. -/
def updateLambdasWeights (M : Measure) (ex : ℚ → ℚ) (ts : TrainingSet) :
    TrainingSet :=
  let st0 := (ts.lambdas.map (fun _ => (0 : ℚ)),
    ts.weights.map (fun _ => (0 : ℚ)))
  let st := (queryIter ts.dataset 0).foldl
    (fun st q => processQuery M ex ts.dataset ts.model_scores q.2 st) st0
  { ts with lambdas := st.1, weights := st.2 }

/-- The inner pair loop as the specification words it (spec section 4.D
step d and claim C1): for every ordered pair of rank positions, apply the
pair update exactly when the pair is not excluded by the truncation rule
(not both positions beyond `get_k()`) and `label[m] > label[n]`; no
`break`. -/
def innerSpec (k : ℕ) (ex : ℚ → ℚ) (dm : ℕ → ℕ → ℚ) (m : ℕ) (e1 : ℕ × ℚ × ℚ) :
    List (ℕ × (ℕ × ℚ × ℚ)) → List ℚ × List ℚ → List ℚ × List ℚ
  | [], st => st
  | (n, e2) :: rest, st =>
    innerSpec k ex dm m e1 rest
      (if ¬(k < m ∧ k < n) ∧ e2.2.1 < e1.2.1 then
        pairUpdate ex |dm m n| e1.1 e2.1 e1.2.2 e2.2.2 st
       else st)

/-- Per-query body following the specification wording (paired with
`innerSpec`). -/
def processQuerySpec (M : Measure) (ex : ℚ → ℚ) (d : List Instance)
    (ms : List ℚ) (idxs : List ℕ) (st : List ℚ × List ℚ) : List ℚ × List ℚ :=
  let rl := rankList d ms idxs
  let dm := M.delta (rl.map (fun e => e.2.1))
  rl.enum.foldl (fun st me => innerSpec M.k ex dm me.1 me.2 rl.enum st) st

/-- `update_lambdas_weights` as the specification and claim C1 word it:
zero both arrays, then for every query in `query_iter` order add every
non-excluded, strictly-label-ordered pair's contribution. -/
def updateLambdasWeightsSpec (M : Measure) (ex : ℚ → ℚ) (ts : TrainingSet) :
    TrainingSet :=
  let st0 := (ts.lambdas.map (fun _ => (0 : ℚ)),
    ts.weights.map (fun _ => (0 : ℚ)))
  let st := (queryIter ts.dataset 0).foldl
    (fun st q => processQuerySpec M ex ts.dataset ts.model_scores q.2 st) st0
  { ts with lambdas := st.1, weights := st.2 }

/-- Embedding of `TrainingSet::feature_histogram`
(src/train/lambdamart/training_set.rs lines 295-308): feed
`(id, dataset[id].value(fid), lambdas[id])` for each listed instance into
the feature's precomputed `ThresholdMap` (`threshold_maps[fid - 1]`); a
missing map (out-of-bounds `fid`) is the Rust indexing panic, modelled
`none`.  In-bounds `id` indexing into `dataset`/`lambdas` is modelled
with `getD`, matching the source on the in-range indices the training
loop supplies. -/
def TrainingSet.feature_histogram (ts : TrainingSet) (fid : ℕ)
    (idxs : List ℕ) : Option (List HistBin) :=
  match ts.threshold_maps[fid - 1]? with
  | none => none
  | some tm =>
    tm.histogram (idxs.map (fun i =>
      (i, (ts.dataset.getD i default).value fid, ts.lambdas.getD i 0)))

/-- Embedding of `TrainingSample` (src/train/lambdamart/training_set.rs):
a training set together with a subset of instance indices. -/
structure TrainingSample where
  training : TrainingSet
  indices : List ℕ

/-- Embedding of `TrainingSample::newton_output`
(src/train/lambdamart/training_set.rs lines 461-477): fold
`(Σλ, Σw)` over the sample's indices and return `Σλ / Σw`, or `0` when
`Σw == 0` (the division branch is not taken). -/
def TrainingSample.newton_output (s : TrainingSample) : ℚ :=
  let p := s.indices.foldl
    (fun acc i => (acc.1 + s.training.lambdas.getD i 0,
      acc.2 + s.training.weights.getD i 0)) ((0 : ℚ), (0 : ℚ))
  if p.2 = 0 then 0 else p.1 / p.2

/-- Embedding of `TrainingSample::variance`
(src/train/lambdamart/training_set.rs lines 500-512): fold `(Σλ, Σλ²)`
over the sample's indices and return `Σλ² - (Σλ)²/count`.  (For the empty
sample the source's `0.0/0.0` is NaN while `ℚ` division by zero gives 0;
both lead `split` to the same `None` result.) -/
def TrainingSample.variance (s : TrainingSample) : ℚ :=
  let p := s.indices.foldl
    (fun acc i =>
      let v := s.training.lambdas.getD i 0
      (acc.1 + v, acc.2 + v * v)) ((0 : ℚ), (0 : ℚ))
  p.2 - p.1 * p.1 / (s.indices.length : ℚ)

/-- Modelled from the spec: `Histogram::best_split`
(src/train/lambdamart/histogram.rs is absent from src/).  Spec section
4.C: for each candidate bin `j` with `0 ≤ j < last`, take the cumulative
`cL = c_j`, `sL = s_j`, the complements `cR = C - cL`, `sR = S - sL`
against the totals in the last bin, reject the candidate when either side
is below `minLeafCount`, score it `s = sL²/cL + sR²/cR`, and return the
maximal `(thresholds[j], s)`, ties broken by lower bin index. -/
def bestSplit (hist : List HistBin) (minLeafCount : ℕ) : Option (ℚ × ℚ) :=
  match hist.getLast? with
  | none => none
  | some lastBin =>
    let cands := (hist.take (hist.length - 1)).filterMap (fun b =>
      if b.count < minLeafCount ∨ lastBin.count - b.count < minLeafCount then
        none
      else
        some (b.threshold,
          b.sum * b.sum / (b.count : ℚ) +
            (lastBin.sum - b.sum) * (lastBin.sum - b.sum) /
              ((lastBin.count - b.count : ℕ) : ℚ)))
    cands.foldl (fun acc c =>
      match acc with
      | none => some c
      | some m => if m.2 < c.2 then some c else some m) none

/-- Embedding of Rust's `Iterator::max_by` as used in
`TrainingSample::split` (`splits.into_iter().max_by(|a, b|
a.2.partial_cmp(&b.2).unwrap())`): fold keeping the accumulator only when
it compares strictly greater, so among equal maxima the LAST element of
the iterator is returned. -/
def rustMaxBySnd (l : List (ℕ × ℚ × ℚ)) : Option (ℕ × ℚ × ℚ) :=
  l.foldl (fun acc x =>
    match acc with
    | none => some x
    | some m => if x.2.2 < m.2.2 then some m else some x) none

/-- The per-feature candidate list of `TrainingSample::split`
(src/train/lambdamart/training_set.rs lines 527-536): for each feature id
in `fid_iter = 1..=nfeatures`, build the node's feature histogram and ask
`best_split`; features without a split are skipped.  A histogram panic
(`none`) aborts the whole computation, as the source would panic. -/
def splitCandidates (s : TrainingSample) (minLeafCount : ℕ) :
    Option (List (ℕ × ℚ × ℚ)) :=
  (List.range' 1 s.training.nfeatures).foldlM (fun acc fid => do
    let h ← s.training.feature_histogram fid s.indices
    pure (match bestSplit h minLeafCount with
      | none => acc
      | some p => acc ++ [(fid, p.1, p.2)])) []

/-- Embedding of `TrainingSample::split`
(src/train/lambdamart/training_set.rs lines 517-565).  The outer `Option`
models Rust panics: `none` for the `assert!(min_leaf_count > 0)` failure
or a histogram panic.  The inner `Option` is the source's return value:
`none` when the variance is within `10⁻⁶` of zero or no feature yields a
split; otherwise the chosen `(fid, threshold, s)` (via `max_by`, last
maximal element) and the left/right partition by
`instance.value(fid) <= threshold`. -/
def TrainingSample.split (s : TrainingSample) (minLeafCount : ℕ) :
    Option (Option (ℕ × ℚ × ℚ × TrainingSample × TrainingSample)) :=
  if minLeafCount = 0 then none
  else if |s.variance| ≤ 1 / 1000000 then some none
  else
    match splitCandidates s minLeafCount with
    | none => none
    | some cands =>
      match rustMaxBySnd cands with
      | none => some none
      | some (fid, threshold, sv) =>
        let lr := s.indices.partition (fun i =>
          decide ((s.training.dataset.getD i default).value fid ≤ threshold))
        some (some (fid, threshold, sv, ⟨s.training, lr.1⟩,
          ⟨s.training, lr.2⟩))

/-- Embedding of `BestScore` (src/train/lambdamart/lambdamart.rs lines
30-35): best iteration and scores, all `None` before the first
iteration. -/
structure BestScore where
  iter : Option ℕ
  train : Option ℚ
  validate : Option ℚ
deriving DecidableEq, Repr

/-- Embedding of `BestScore::update` (src/train/lambdamart/lambdamart.rs
lines 47-64): initialize each field on first use (`or`), then, when a
validation score is present, move to `(iter, train, validate)` iff the new
validation score strictly exceeds the stored one; otherwise compare
training scores.  The source's `unwrap()` calls are safe (the fields were
just initialized); they are modelled with `getD`. -/
def BestScore.update (bs : BestScore) (i : ℕ) (train : ℚ)
    (validate : Option ℚ) : BestScore :=
  let it := match bs.iter with | some x => some x | none => some i
  let tr := match bs.train with | some x => some x | none => some train
  let va := match bs.validate with | some x => some x | none => validate
  match validate with
  | some v =>
    if va.getD 0 < v then
      { iter := some i, train := some train, validate := some v }
    else { iter := it, train := tr, validate := va }
  | none =>
    if tr.getD 0 < train then
      { iter := some i, train := some train, validate := va }
    else { iter := it, train := tr, validate := va }

/-- Embedding of `BestScore::best_iter`
(src/train/lambdamart/lambdamart.rs lines 67-69):
`self.validate.and(self.iter)` — the best iteration is reported only when
a validation score has been recorded. -/
def BestScore.best_iter (bs : BestScore) : Option ℕ :=
  match bs.validate with
  | some _ => bs.iter
  | none => none

/-- Modelled from the spec: `Ensemble::truncate`
(src/train/regression_tree.rs, which defines `Ensemble`, is absent from
src/; `LambdaMART::learn` calls `self.ensemble.truncate(bestIter)`).
Spec section 4.G states that this call truncates the ensemble to length
`bestIter + 1`, so `truncate n` keeps the first `n + 1` trees. -/
def ensembleTruncate (e : List ℕ) (n : ℕ) : List ℕ :=
  e.take (n + 1)

/-- The `LambdaMART::learn` loop configuration
(src/train/lambdamart/lambdamart.rs lines 141-195), with the tree fitting
and metric evaluation — whose implementations live outside the control
flow this claim is about — abstracted as per-iteration score oracles:
`trainScore i` is the training measure after iteration `i`, and
`validateScore` is present exactly when `config.validate` is `Some`. -/
structure LearnConfig where
  trees : ℕ
  early_stop : ℕ
  trainScore : ℕ → ℚ
  validateScore : Option (ℕ → ℚ)

/-- The iteration body of `LambdaMART::learn`
(src/train/lambdamart/lambdamart.rs lines 149-191): for each
`i in 0..trees` (the remaining iteration indices are carried as a list),
push the new tree (modelled by its index), update `BestScore`, and stop —
truncating the ensemble at `best_iter().unwrap()` — when
`best_iter().map(|iter| iter + early_stop < i)` holds.  The ensemble is
the list of tree indices built so far. -/
def learnGo (cfg : LearnConfig) :
    List ℕ → BestScore → List ℕ → BestScore × List ℕ
  | [], bs, ens => (bs, ens)
  | i :: rest, bs, ens =>
    let ts := cfg.trainScore i
    let vs := cfg.validateScore.map (fun f => f i)
    let ens1 := ens ++ [i]
    let bs1 := bs.update i ts vs
    let stop :=
      (bs1.best_iter.map (fun b => decide (b + cfg.early_stop < i))).getD
        false
    if stop then (bs1, ensembleTruncate ens1 (bs1.best_iter.getD 0))
    else learnGo cfg rest bs1 ens1

/-- Embedding of `LambdaMART::learn`
(src/train/lambdamart/lambdamart.rs lines 141-195) at the control-flow
level: run the iteration body over `0..trees` with a fresh `BestScore`
and an empty ensemble; returns the final best score and ensemble. -/
def learn (cfg : LearnConfig) : BestScore × List ℕ :=
  learnGo cfg (List.range cfg.trees)
    { iter := none, train := none, validate := none } []

/-- Embedding of the svmlight `Instance` (src/format/svmlight.rs):
label, qid and a value vector indexed from 1 (index 0 is padding).
Strings are embedded as `List Char` so that parsing is fully
computable. -/
structure SvmInstance where
  label : ℚ
  qid : ℕ
  values : List ℚ
deriving DecidableEq, Repr

/-- Splitting a character list at every separator character, keeping
empty pieces — the behavior of Rust's `str::split(char)` used by the
parser. -/
def splitChars (p : Char → Bool) : List Char → List (List Char)
  | [] => [[]]
  | c :: rest =>
    if p c then [] :: splitChars p rest
    else
      match splitChars p rest with
      | [] => [[c]]
      | g :: gs => (c :: g) :: gs

/-- Rust `str::trim`: drop whitespace from both ends. -/
def trimChars (l : List Char) : List Char :=
  ((l.dropWhile Char.isWhitespace).reverse.dropWhile Char.isWhitespace).reverse

/-- Decimal digits to a natural number (most significant first). -/
def digitsToNat (l : List Char) : ℕ :=
  l.foldl (fun n c => 10 * n + (c.toNat - 48)) 0

/-- Model of Rust `u64::from_str` as used by the svmlight parser: an
optional leading `+` followed by one or more decimal digits. -/
def parseU64 (l : List Char) : Option ℕ :=
  let t := match l with
    | c :: rest => if c = '+' then rest else c :: rest
    | [] => []
  if t ≠ [] ∧ t.all Char.isDigit then some (digitsToNat t) else none

/-- Model of Rust `f64::from_str` as used by the svmlight parser,
restricted to the plain decimal forms the format exercises: an optional
sign, then `digits`, `digits.digits`, `digits.` or `.digits`.  The parsed
decimal is mapped to its exact rational value.  (Exponent, `inf` and
`NaN` forms of the std parser are not modelled; no claim exercises
them.) -/
def parseF64 (l : List Char) : Option ℚ :=
  let sgn : ℚ := match l with
    | c :: _ => if c = '-' then -1 else 1
    | [] => 1
  let t := match l with
    | c :: rest => if c = '-' ∨ c = '+' then rest else c :: rest
    | [] => []
  match splitChars (fun c => c = '.') t with
  | [ip] =>
    if ip ≠ [] ∧ ip.all Char.isDigit then
      some (sgn * (digitsToNat ip : ℚ))
    else none
  | [ip, fp] =>
    if (ip ≠ [] ∨ fp ≠ []) ∧ ip.all Char.isDigit ∧ fp.all Char.isDigit then
      some (sgn * ((digitsToNat ip : ℚ) +
        (digitsToNat fp : ℚ) / (10 : ℚ) ^ fp.length))
    else none
  | _ => none

/-- Embedding of `Instance::parse_qid` (src/format/svmlight.rs lines
139-152): split on `:`, demand exactly two parts, the first literally
`qid`, the second a `u64`. -/
def parseQid (s : List Char) : Except (List Char) ℕ :=
  let v := splitChars (fun c => c = ':') s
  if v.length ≠ 2 then Except.error s
  else if v.headD [] ≠ ('q' :: ['i', 'd']) then Except.error s
  else
    match parseU64 (v.getD 1 []) with
    | some q => Except.ok q
    | none => Except.error s

/-- Embedding of the inner `parse` of `Instance::parse_values`
(src/format/svmlight.rs lines 158-168): split on `:`, demand exactly two
parts, a `u64` feature id and an `f64` value. -/
def parseField (s : List Char) : Except (List Char) (ℕ × ℚ) :=
  let v := splitChars (fun c => c = ':') s
  if v.length ≠ 2 then Except.error s
  else
    match parseU64 (v.getD 0 []), parseF64 (v.getD 1 []) with
    | some id, some value => Except.ok (id, value)
    | _, _ => Except.error s

/-- The `collect::<Result<_>>()` of `Instance::parse_values`: parse each
field, stopping at the first error. -/
def collectFields : List (List Char) → Except (List Char) (List (ℕ × ℚ))
  | [] => Except.ok []
  | f :: rest =>
    match parseField f with
    | Except.error e => Except.error e
    | Except.ok p =>
      match collectFields rest with
      | Except.error e => Except.error e
      | Except.ok ps => Except.ok (p :: ps)

/-- Embedding of Rust's `Iterator::max_by_key(|e| e.0)` as used in
`Instance::parse_values`: among equal keys the last element wins; `none`
on an empty iterator (where the source's `.unwrap()` panics). -/
def rustMaxByKeyFst (l : List (ℕ × ℚ)) : Option (ℕ × ℚ) :=
  l.foldl (fun acc x =>
    match acc with
    | none => some x
    | some m => if x.1 < m.1 then some m else some x) none

/-- Embedding of `Instance::parse_values` (src/format/svmlight.rs lines
157-181): parse all `fid:value` fields, take the maximal feature id with
`max_by_key(..).unwrap()` — the outer `none` models the panic of that
`unwrap` on an empty field list — and scatter the values into a
zero-filled vector of length `max_id + 1`. -/
def parseValues (fields : List (List Char)) :
    Option (Except (List Char) (List ℚ)) :=
  match collectFields fields with
  | Except.error e => some (Except.error e)
  | Except.ok v =>
    match rustMaxByKeyFst v with
    | none => none
    | some m =>
      some (Except.ok (v.foldl (fun r p => r.set p.1 p.2)
        (List.replicate (m.1 + 1) (0 : ℚ))))

/-- The whitespace tokenization of `Instance::from_str`
(src/format/svmlight.rs lines 183-186): trim, cut at the first `#`, trim
again, and split on whitespace discarding empty tokens
(`split_whitespace`). -/
def svmFields (s : List Char) : List (List Char) :=
  let line := trimChars ((splitChars (fun c => c = '#') (trimChars s)).headD [])
  (splitChars Char.isWhitespace line).filter (fun f => f ≠ [])

/-- Embedding of `Instance::from_str` (src/format/svmlight.rs lines
183-199): fewer than two tokens is an error; otherwise parse the label,
the qid and the remaining `fid:value` fields.  `none` models a panic
(which `parse_values` hits on an empty field list); `some (ok _)` and
`some (error _)` are the source's `Ok`/`Err`. -/
def instanceFromStr (s : List Char) : Option (Except (List Char) SvmInstance) :=
  let fields := svmFields s
  if fields.length < 2 then some (Except.error s)
  else
    match parseF64 (fields.getD 0 []) with
    | none => some (Except.error s)
    | some label =>
      match parseQid (fields.getD 1 []) with
      | Except.error e => some (Except.error e)
      | Except.ok qid =>
        match parseValues (fields.drop 2) with
        | none => none
        | some (Except.error e) => some (Except.error e)
        | some (Except.ok values) =>
          some (Except.ok ⟨label, qid, values⟩)

/-- The sorted value column fed to `ThresholdMap::thresholds` by
`ThresholdMap::new`: the values of the stable-sorted indexed pairs. -/
def sortedVals (values : List ℚ) : List ℚ :=
  (sortIndexed values).map (fun p => p.2)

/-- `Σλ` over a sample's indices (the `lambda_sum` of
`TrainingSample::newton_output`). -/
def sampleLambdaSum (s : TrainingSample) : ℚ :=
  (s.indices.map (fun i => s.training.lambdas.getD i 0)).sum

/-- `Σw` over a sample's indices (the `weight_sum` of
`TrainingSample::newton_output`). -/
def sampleWeightSum (s : TrainingSample) : ℚ :=
  (s.indices.map (fun i => s.training.weights.getD i 0)).sum

/-- `Σλ²` over a sample's indices (the `squared_sum` of
`TrainingSample::variance`). -/
def sampleSqSum (s : TrainingSample) : ℚ :=
  (s.indices.map
    (fun i => s.training.lambdas.getD i 0 * s.training.lambdas.getD i 0)).sum

/-- The running accumulator of `rustMaxBySnd` once it holds a value:
Rust's `max_by` keeps the accumulator only when it compares strictly
greater than the next element. -/
def maxRun : (ℕ × ℚ × ℚ) → List (ℕ × ℚ × ℚ) → ℕ × ℚ × ℚ
  | a, [] => a
  | a, x :: l => maxRun (if x.2.2 < a.2.2 then a else x) l

/-- The best iteration (first argmax under strict improvement) of a
validation-score sequence over iterations `0..n`, mirroring how
`BestScore::update` moves only on a strictly larger validation score. -/
def bestUpTo (v : ℕ → ℚ) : ℕ → ℕ
  | 0 => 0
  | n + 1 => if v (bestUpTo v n) < v (n + 1) then n + 1 else bestUpTo v n

/-- Sum of the entries of `l` at the positions listed in `g`. -/
def sumAt (g : List ℕ) (l : List ℚ) : ℚ :=
  (g.map (fun i => l.getD i 0)).sum

/-- The `BestScore` state holding iteration `b`, its training score and
its validation score — the loop invariant shape of `LambdaMART::learn`
when a validation set is configured. -/
def bsState (t v : ℕ → ℚ) (b : ℕ) : BestScore :=
  { iter := some b, train := some (t b), validate := some (v b) }

/-- The nine feature values of the repository's own
`test_threshold_map` / lambda-weight fixture. -/
def valsS3 : List ℚ := [5, 7, 3, 2, 1, 8, 9, 4, 6]

/-- The `ThresholdMap` of that fixture with a budget of 3 bins. -/
def tmS3 : ThresholdMap := ThresholdMap.new valsS3 3

/-- Histogram input feeding each instance's feature value as its own
target (the repository's squared-labels histogram scenario). -/
def inputS4 : List (ℕ × ℚ × ℚ) := valsS3.enum.map (fun p => (p.1, p.2, p.2))

/-- The resulting histogram of that scenario. -/
def histS4 : List HistBin := (tmS3.histogram inputS4).getD []

/-- A two-value threshold map whose second bin will receive a negative
target. -/
def tmNeg : ThresholdMap := ThresholdMap.new [0, 1] 3

/-- Histogram input with a negative target (lambdas are routinely
negative) landing in the second bin. -/
def inputNeg : List (ℕ × ℚ × ℚ) := [(0, 0, 0), (1, 1, -1)]

/-- The histogram produced from `inputNeg`. -/
def histNeg : List HistBin := (tmNeg.histogram inputNeg).getD []

/-- Two instances over two identical feature columns. -/
def dsPair : List Instance := [⟨0, 1, [0, 0]⟩, ⟨0, 1, [1, 1]⟩]

/-- Training state over `dsPair` with non-constant lambdas: both features
produce identical best splits, so the feature tie-break is exercised. -/
def tsTie : TrainingSet := { TrainingSet.new dsPair 2 4 with lambdas := [1, -1] }

/-- The root sample of `tsTie`. -/
def sampleTie : TrainingSample := ⟨tsTie, [0, 1]⟩

/-- Training state over `dsPair` with constant lambdas (zero variance,
zero weights). -/
def tsFlat : TrainingSet := { TrainingSet.new dsPair 2 4 with lambdas := [1, 1] }

/-- The root sample of `tsFlat`. -/
def sampleFlat : TrainingSample := ⟨tsFlat, [0, 1]⟩

/-- A three-instance dataset with two contiguous query groups. -/
def dsTwoQ : List Instance := [⟨1, 1, [1]⟩, ⟨0, 1, [2]⟩, ⟨2, 2, [3]⟩]

/-- Training state over `dsTwoQ`. -/
def tsTwoQ : TrainingSet := TrainingSet.new dsTwoQ 1 4

/-- A fixed measure for concrete evaluations: truncation 10, constant
swap-delta 1. -/
def exMeasure : Measure := ⟨10, fun _ _ _ => 1⟩

/-- A fixed stand-in for `f64::exp` in concrete evaluations. -/
def exExp : ℚ → ℚ := fun _ => 1

/-- Learn configuration whose validation score strictly decreases but
whose `early_stop` horizon is never crossed within `trees = 2`. -/
def cfgNoStop : LearnConfig := ⟨2, 5, fun _ => 0, some (fun i => -(i : ℚ))⟩

/-- Learn configuration with `early_stop = 0` and a strictly decreasing
validation score: early stop fires at iteration 1. -/
def cfgStop : LearnConfig := ⟨3, 0, fun _ => 0, some (fun i => -(i : ℚ))⟩

/-! ## Helper lemmas -/

theorem option_eq_some_getD {α : Type} (o : Option α) (d : α)
    (h : o.isSome = true) : o = some (o.getD d) := by
  cases o
  · simp at h
  · rfl

theorem foldl_pair_sum (f g : ℕ → ℚ) (l : List ℕ) (a b : ℚ) :
    l.foldl (fun acc i => (acc.1 + f i, acc.2 + g i)) (a, b) =
      (a + (l.map f).sum, b + (l.map g).sum) := by
  induction l generalizing a b with
  | nil => simp
  | cons x xs ih => simp [ih, add_assoc]

theorem list_sum_sq_nonneg (l : List ℚ) : 0 ≤ (l.map (fun x => x * x)).sum := by
  induction l with
  | nil => simp
  | cons x xs ih =>
    simp only [List.map_cons, List.sum_cons]
    have := mul_self_nonneg x
    linarith

theorem list_sq_sum_le (l : List ℚ) :
    l.sum * l.sum ≤ l.length * (l.map (fun x => x * x)).sum := by
  induction l with
  | nil => simp
  | cons x xs ih =>
    simp only [List.sum_cons, List.map_cons, List.length_cons]
    push_cast
    have h2 := list_sum_sq_nonneg xs
    have h3 := sq_nonneg ((xs.length : ℚ) * x - xs.sum)
    have h4 := mul_self_nonneg x
    rcases Nat.eq_zero_or_pos xs.length with hn | hn
    · have hnil : xs = [] := List.length_eq_zero.mp hn
      subst hnil
      simp only [List.sum_nil, List.length_nil, List.map_nil, Nat.cast_zero]
      nlinarith [mul_self_nonneg x]
    · have hn' : (0 : ℚ) < (xs.length : ℚ) := by exact_mod_cast hn
      nlinarith [ih, h2, h3, h4, mul_self_nonneg xs.sum,
        mul_le_mul_of_nonneg_left ih (le_of_lt hn'), hn']

theorem newton_output_eq (s : TrainingSample) :
    s.newton_output =
      if sampleWeightSum s = 0 then 0
      else sampleLambdaSum s / sampleWeightSum s := by
  have h := foldl_pair_sum (fun i => s.training.lambdas.getD i 0)
    (fun i => s.training.weights.getD i 0) s.indices 0 0
  unfold TrainingSample.newton_output
  rw [h]
  simp [sampleLambdaSum, sampleWeightSum]

theorem variance_eq (s : TrainingSample) :
    s.variance = sampleSqSum s -
      sampleLambdaSum s * sampleLambdaSum s / (s.indices.length : ℚ) := by
  have h := foldl_pair_sum (fun i => s.training.lambdas.getD i 0)
    (fun i => s.training.lambdas.getD i 0 * s.training.lambdas.getD i 0)
    s.indices 0 0
  unfold TrainingSample.variance
  rw [show (fun (acc : ℚ × ℚ) (i : ℕ) =>
      let v := s.training.lambdas.getD i 0
      (acc.1 + v, acc.2 + v * v)) = fun acc i =>
        (acc.1 + s.training.lambdas.getD i 0,
          acc.2 + s.training.lambdas.getD i 0 * s.training.lambdas.getD i 0)
    from rfl]
  rw [h]
  simp [sampleLambdaSum, sampleSqSum]

theorem variance_nonneg (s : TrainingSample) : 0 ≤ s.variance := by
  rw [variance_eq]
  rcases Nat.eq_zero_or_pos s.indices.length with h | h
  · have hnil : s.indices = [] := List.length_eq_zero.mp h
    simp [sampleSqSum, sampleLambdaSum, hnil]
  · have hcs := list_sq_sum_le (s.indices.map (fun i => s.training.lambdas.getD i 0))
    rw [List.map_map, List.length_map] at hcs
    have hQ : sampleSqSum s =
        (s.indices.map
          (fun i => s.training.lambdas.getD i 0 * s.training.lambdas.getD i 0)).sum := rfl
    have hS : sampleLambdaSum s =
        (s.indices.map (fun i => s.training.lambdas.getD i 0)).sum := rfl
    have hpos : (0 : ℚ) < (s.indices.length : ℚ) := by exact_mod_cast h
    rw [sub_nonneg, div_le_iff₀ hpos]
    have hcs2 : sampleLambdaSum s * sampleLambdaSum s ≤
        (s.indices.length : ℚ) * sampleSqSum s := by
      rw [hQ, hS]
      simpa [Function.comp] using hcs
    calc sampleLambdaSum s * sampleLambdaSum s
        ≤ (s.indices.length : ℚ) * sampleSqSum s := hcs2
      _ = sampleSqSum s * (s.indices.length : ℚ) := by ring

/-! ## Claim C8 -/

/-- C8: `TrainingSample::newton_output` returns the sum of lambdas over
the sample's indices divided by the sum of weights over those indices,
and returns exactly 0 whenever the sum of weights equals 0 — the zero
branch is taken instead of dividing, and no error is raised (the function
is total). -/
theorem c8_newton_output (s : TrainingSample) :
    (sampleWeightSum s = 0 → s.newton_output = 0) ∧
    (sampleWeightSum s ≠ 0 →
      s.newton_output = sampleLambdaSum s / sampleWeightSum s) := by
  constructor
  · intro h
    rw [newton_output_eq, if_pos h]
  · intro h
    rw [newton_output_eq, if_neg h]

/-- Witness for C8 at a concrete sample whose weights are all zero. -/
theorem c8_newton_output_witness :
    sampleWeightSum sampleFlat = 0 ∧ sampleFlat.newton_output = 0 := by
  have h : sampleWeightSum sampleFlat = 0 := by
    with_unfolding_all exact of_decide_eq_true rfl
  exact ⟨h, (c8_newton_output sampleFlat).1 h⟩

/-! ## Claim C7 -/

/-- C7: a training sample whose lambda variance `Σλ² - (Σλ)²/n` is at
most `10⁻⁶` is declared unsplitable: `split(minLeafCount)` (with a legal
`minLeafCount ≥ 1`, as asserted by the source) returns `None` — the node
becomes a leaf and no error is raised.  In exact arithmetic the variance
is nonnegative, so the bound `≤ 10⁻⁶` coincides with the source's
`variance().abs() <= 0.000001` check. -/
theorem c7_small_variance_leaf (s : TrainingSample) (minLeaf : ℕ)
    (hm : 0 < minLeaf) (hv : s.variance ≤ 1 / 1000000) :
    s.split minLeaf = some none := by
  have h0 : ¬(minLeaf = 0) := by omega
  have habs : |s.variance| ≤ 1 / 1000000 :=
    abs_le.mpr ⟨le_trans (by norm_num) (variance_nonneg s), hv⟩
  unfold TrainingSample.split
  rw [if_neg h0, if_pos habs]

/-- Witness for C7 at a concrete constant-lambda sample (variance 0). -/
theorem c7_small_variance_leaf_witness :
    sampleFlat.variance ≤ 1 / 1000000 ∧ sampleFlat.split 3 = some none := by
  have h : sampleFlat.variance ≤ 1 / 1000000 := by
    with_unfolding_all exact of_decide_eq_true rfl
  exact ⟨h, c7_small_variance_leaf sampleFlat 3 (by omega) h⟩

/-! ## Claim C2: lemmas about the learn loop -/

theorem bestUpTo_le (v : ℕ → ℚ) : ∀ n, bestUpTo v n ≤ n := by
  intro n
  induction n with
  | zero => simp [bestUpTo]
  | succ n ih =>
    unfold bestUpTo
    split
    · exact le_refl _
    · omega

theorem update_fresh (t v : ℕ → ℚ) :
    BestScore.update ⟨none, none, none⟩ 0 (t 0) (some (v 0)) = bsState t v 0 := by
  simp [BestScore.update, bsState]

theorem update_bsState (t v : ℕ → ℚ) (b i : ℕ) :
    (bsState t v b).update i (t i) (some (v i)) =
      if v b < v i then bsState t v i else bsState t v b := by
  by_cases h : v b < v i <;> simp [BestScore.update, bsState, h]

theorem update_bsState_step (t v : ℕ → ℚ) (i : ℕ) :
    (bsState t v (bestUpTo v i)).update (i + 1) (t (i + 1))
      (some (v (i + 1))) = bsState t v (bestUpTo v (i + 1)) := by
  have heq : bestUpTo v (i + 1) =
      if v (bestUpTo v i) < v (i + 1) then i + 1 else bestUpTo v i := rfl
  rw [update_bsState, heq]
  by_cases h : v (bestUpTo v i) < v (i + 1)
  · rw [if_pos h, if_pos h]
  · rw [if_neg h, if_neg h]

theorem best_iter_bsState (t v : ℕ → ℚ) (b : ℕ) :
    (bsState t v b).best_iter = some b := rfl

theorem update_none_validate (bs : BestScore) (i : ℕ) (tr : ℚ)
    (h : bs.validate = none) : (bs.update i tr none).validate = none := by
  simp only [BestScore.update, h]
  split <;> rfl

theorem learnGo_none (cfg : LearnConfig) (hv : cfg.validateScore = none) :
    ∀ (rest : List ℕ) (bs : BestScore) (ens : List ℕ),
      bs.validate = none → (learnGo cfg rest bs ens).2 = ens ++ rest := by
  intro rest
  induction rest with
  | nil => intro bs ens _; simp [learnGo]
  | cons i rest ih =>
    intro bs ens h
    have hvn : cfg.validateScore.map (fun f => f i) = none := by rw [hv]; rfl
    have h1 : (bs.update i (cfg.trainScore i) none).validate = none :=
      update_none_validate bs i (cfg.trainScore i) h
    have hbi : (bs.update i (cfg.trainScore i) none).best_iter = none := by
      unfold BestScore.best_iter
      rw [h1]
    simp only [learnGo, hvn, hbi, Option.map_none', Option.getD_none,
      Bool.false_eq_true, if_false]
    rw [ih _ _ h1]
    simp

theorem learnGo_cons (cfg : LearnConfig) (i : ℕ) (rest : List ℕ)
    (bs : BestScore) (ens : List ℕ) :
    learnGo cfg (i :: rest) bs ens =
      (let bs1 := bs.update i (cfg.trainScore i)
        (cfg.validateScore.map (fun f => f i))
       if (bs1.best_iter.map
            (fun b => decide (b + cfg.early_stop < i))).getD false then
         (bs1, ensembleTruncate (ens ++ [i]) (bs1.best_iter.getD 0))
       else learnGo cfg rest bs1 (ens ++ [i])) := rfl

theorem learnGo_val_noStop (cfg : LearnConfig) (v : ℕ → ℚ)
    (hv : cfg.validateScore = some v) :
    ∀ (len i : ℕ),
      (∀ j, i + 1 ≤ j → j < i + 1 + len →
        ¬(bestUpTo v j + cfg.early_stop < j)) →
      learnGo cfg (List.range' (i + 1) len)
          (bsState cfg.trainScore v (bestUpTo v i)) (List.range (i + 1)) =
        (bsState cfg.trainScore v (bestUpTo v (i + len)),
          List.range (i + 1 + len)) := by
  intro len
  induction len with
  | zero => intro i h; simp [learnGo]
  | succ len ih =>
    intro i h
    have hr : List.range' (i + 1) (len + 1) =
        (i + 1) :: List.range' (i + 1 + 1) len := rfl
    rw [hr, learnGo_cons]
    simp only [hv, Option.map_some']
    rw [update_bsState_step]
    rw [best_iter_bsState]
    have hstop : ¬(bestUpTo v (i + 1) + cfg.early_stop < i + 1) :=
      h (i + 1) (le_refl _) (by omega)
    simp only [Option.map_some', Option.getD_some, decide_eq_true_eq,
      hstop, if_false, decide_eq_false hstop]
    rw [← List.range_succ]
    have := ih (i + 1) (fun j h1 h2 => h j (by omega) (by omega))
    rw [this]
    have h1 : i + 1 + len = i + (len + 1) := by omega
    have h2 : i + 1 + 1 + len = i + 1 + (len + 1) := by omega
    rw [h1, h2]

theorem learnGo_val_stop (cfg : LearnConfig) (v : ℕ → ℚ)
    (hv : cfg.validateScore = some v) (j0 : ℕ)
    (hstop : bestUpTo v j0 + cfg.early_stop < j0)
    (hfirst : ∀ j, j < j0 → ¬(bestUpTo v j + cfg.early_stop < j)) :
    ∀ (len i : ℕ), i + 1 ≤ j0 → j0 < i + 1 + len →
      learnGo cfg (List.range' (i + 1) len)
          (bsState cfg.trainScore v (bestUpTo v i)) (List.range (i + 1)) =
        (bsState cfg.trainScore v (bestUpTo v j0),
          List.range (bestUpTo v j0 + 1)) := by
  intro len
  induction len with
  | zero => intro i h1 h2; omega
  | succ len ih =>
    intro i h1 h2
    have hr : List.range' (i + 1) (len + 1) =
        (i + 1) :: List.range' (i + 1 + 1) len := rfl
    rw [hr, learnGo_cons]
    simp only [hv, Option.map_some']
    rw [update_bsState_step, best_iter_bsState]
    by_cases hj : j0 = i + 1
    · subst hj
      have hble : bestUpTo v (i + 1) + 1 ≤ i + 1 + 1 := by
        have := bestUpTo_le v (i + 1)
        omega
      simp only [Option.map_some', Option.getD_some, decide_eq_true hstop,
        if_true, ensembleTruncate, ← List.range_succ, List.take_range,
        min_eq_left hble]
    · have hlt : ¬(bestUpTo v (i + 1) + cfg.early_stop < i + 1) :=
        hfirst (i + 1) (by omega)
      simp only [Option.map_some', Option.getD_some, decide_eq_true_eq, hlt,
        decide_eq_false hlt, if_false]
      rw [← List.range_succ]
      exact ih (i + 1) (by omega) (by omega)

/-! ## Claim C2: theorem, counterexample, witness -/

/-- C2 (amended): `learn()` stops before building all configured trees
exactly when a validation set is configured and
`bestIter + earlyStop < i` first holds at some iteration `i = j0 < trees`;
in that case (with the spec-modelled `Ensemble::truncate`) the final
ensemble is the first `bestIter + 1` trees, strictly fewer than `trees`,
and the recorded best iteration is `bestUpTo v j0`.  Without a validation
set — or when the condition never holds before `trees` — exactly `trees`
trees are built.  (The original claim's additional assertion that the
final length always equals `min(trees, bestIter + 1)` is false; see the
counterexample.) -/
theorem c2_learn_early_stop (cfg : LearnConfig) :
    (cfg.validateScore = none → (learn cfg).2 = List.range cfg.trees) ∧
    (∀ v, cfg.validateScore = some v →
      ((∀ j, j < cfg.trees → ¬(bestUpTo v j + cfg.early_stop < j)) →
        (learn cfg).2 = List.range cfg.trees) ∧
      (∀ j0, j0 < cfg.trees → bestUpTo v j0 + cfg.early_stop < j0 →
        (∀ j, j < j0 → ¬(bestUpTo v j + cfg.early_stop < j)) →
        learn cfg = (bsState cfg.trainScore v (bestUpTo v j0),
          List.range (bestUpTo v j0 + 1)) ∧
        (learn cfg).2.length < cfg.trees)) := by
  constructor
  · intro hv
    unfold learn
    rw [learnGo_none cfg hv (List.range cfg.trees) _ _ rfl]
    simp
  · intro v hv
    rcases Nat.eq_zero_or_pos cfg.trees with h0 | hpos
    · constructor
      · intro _
        unfold learn
        rw [h0]
        simp [learnGo]
      · intro j0 hj0
        omega
    · obtain ⟨m, hm⟩ : ∃ m, cfg.trees = m + 1 := ⟨cfg.trees - 1, by omega⟩
      have hsplit : List.range cfg.trees = 0 :: List.range' 1 m := by
        rw [hm, List.range_eq_range']
        rfl
      have hfirstStep : ∀ (res : List ℕ),
          learnGo cfg (0 :: res) ⟨none, none, none⟩ [] =
            learnGo cfg res (bsState cfg.trainScore v (bestUpTo v 0))
              (List.range 1) := by
        intro res
        rw [learnGo_cons]
        simp only [hv, Option.map_some']
        rw [update_fresh cfg.trainScore v, best_iter_bsState]
        have : ¬(0 + cfg.early_stop < 0) := by omega
        simp only [Option.map_some', Option.getD_some, decide_eq_false this,
          if_false, List.nil_append]
        rfl
      constructor
      · intro hno
        unfold learn
        rw [hsplit, hfirstStep]
        rw [learnGo_val_noStop cfg v hv m 0
          (fun j h1 h2 => hno j (by omega))]
        show List.range (0 + 1 + m) = 0 :: List.range' 1 m
        rw [← hsplit]
        have harg : 0 + 1 + m = cfg.trees := by omega
        rw [harg]
      · intro j0 hj0 hstop hfirst
        have hj0pos : 1 ≤ j0 := by
          rcases Nat.eq_zero_or_pos j0 with h | h
          · subst h
            simp [bestUpTo] at hstop
          · omega
        have hmain : learn cfg = (bsState cfg.trainScore v (bestUpTo v j0),
            List.range (bestUpTo v j0 + 1)) := by
          unfold learn
          rw [hsplit, hfirstStep]
          exact learnGo_val_stop cfg v hv j0 hstop hfirst m 0 hj0pos (by omega)
        refine ⟨hmain, ?_⟩
        rw [hmain]
        have hble := bestUpTo_le v j0
        simp only [List.length_range]
        omega

/-- Counterexample to C2 as stated: with two trees, `early_stop = 5` and
a strictly decreasing validation score, early stop never fires, so the
final ensemble holds 2 trees while the best iteration is 0 — the length
is not `min(trees, bestIter + 1) = 1`. -/
theorem c2_learn_early_stop_counterexample :
    (learn cfgNoStop).1.best_iter = some 0 ∧
    (learn cfgNoStop).2.length = 2 ∧
    (learn cfgNoStop).2.length ≠
      min cfgNoStop.trees ((learn cfgNoStop).1.best_iter.getD 0 + 1) := by
  refine ⟨rfl, rfl, ?_⟩
  decide

/-- Witness for C2 at a concrete configuration where early stop fires at
iteration 1 with best iteration 0. -/
theorem c2_learn_early_stop_witness :
    learn cfgStop = (bsState cfgStop.trainScore (fun i => -(i : ℚ)) 0,
      List.range 1) ∧ (learn cfgStop).2.length < cfgStop.trees := by
  have h := ((c2_learn_early_stop cfgStop).2 (fun i => -(i : ℚ)) rfl).2 1
    (by decide) (by decide) (by decide)
  exact h

/-! ## Claim C10: lemmas and theorem -/

theorem foldl_maxkey_some (a : ℕ × ℚ) (l : List (ℕ × ℚ)) :
    (l.foldl (fun acc x =>
      match acc with
      | none => some x
      | some m => if x.1 < m.1 then some m else some x)
      (some a)).isSome = true := by
  induction l generalizing a with
  | nil => rfl
  | cons x xs ih =>
    simp only [List.foldl_cons]
    by_cases h : x.1 < a.1
    · rw [if_pos h]
      exact ih a
    · rw [if_neg h]
      exact ih x

theorem rustMaxByKeyFst_cons_isSome (x : ℕ × ℚ) (l : List (ℕ × ℚ)) :
    (rustMaxByKeyFst (x :: l)).isSome = true := by
  unfold rustMaxByKeyFst
  simp only [List.foldl_cons]
  exact foldl_maxkey_some x l

theorem parseValues_eq_none_iff (fields : List (List Char)) :
    parseValues fields = none ↔ fields = [] := by
  constructor
  · intro h
    cases fields with
    | nil => rfl
    | cons f rest =>
      exfalso
      unfold parseValues at h
      cases hc : collectFields (f :: rest) with
      | error e => rw [hc] at h; simp at h
      | ok v =>
        rw [hc] at h
        unfold collectFields at hc
        cases hf : parseField f with
        | error e => rw [hf] at hc; simp at hc
        | ok p =>
          rw [hf] at hc
          cases hr : collectFields rest with
          | error e => rw [hr] at hc; simp at hc
          | ok ps =>
            rw [hr] at hc
            simp only [Except.ok.injEq] at hc
            rw [← hc] at h
            have hs := rustMaxByKeyFst_cons_isSome p ps
            cases hm : rustMaxByKeyFst (p :: ps) with
            | none => rw [hm] at hs; simp at hs
            | some m => simp [hm] at h
  · intro h
    subst h
    rfl

/-- C10 (amended): `Instance::from_str` returns `Ok` or `Err` for every
input except exactly the lines whose tokenization has precisely two
fields (a parseable label and a parseable qid and nothing else): there
`parse_values` is applied to an empty field list and panics on
`max_by_key(..).unwrap()`.  The theorem characterizes the panic (`none`)
exactly. -/
theorem c10_from_str_total_except_empty_fields (s : List Char) :
    instanceFromStr s = none ↔
      ((svmFields s).length = 2 ∧
        (parseF64 ((svmFields s).getD 0 [])).isSome = true ∧
        (∃ q, parseQid ((svmFields s).getD 1 []) = Except.ok q)) := by
  unfold instanceFromStr
  by_cases hlen : (svmFields s).length < 2
  · have hne : ¬((svmFields s).length = 2) := by omega
    simp [hlen, hne]
  · rw [if_neg hlen]
    cases hf : parseF64 ((svmFields s).getD 0 []) with
    | none => simp [hf]
    | some label =>
      cases hq : parseQid ((svmFields s).getD 1 []) with
      | error e => simp [hq]
      | ok q =>
        cases hv : parseValues ((svmFields s).drop 2) with
        | none =>
          have hd : (svmFields s).drop 2 = [] :=
            (parseValues_eq_none_iff _).mp hv
          have hlen2 : (svmFields s).length = 2 := by
            have := List.drop_eq_nil_iff.mp hd
            omega
          simp [hf, hq, hlen2]
        | some r =>
          have hd : ¬((svmFields s).drop 2 = []) := by
            intro hnil
            rw [(parseValues_eq_none_iff _).mpr hnil] at hv
            exact Option.noConfusion hv
          have hlen2 : ¬((svmFields s).length = 2) := by
            intro h2
            exact hd (List.drop_eq_nil_iff.mpr (by omega))
          cases r with
          | error e => simp [hf, hq, hlen2]
          | ok values => simp [hf, hq, hlen2]

/-- Counterexample to C10 as stated: a line with a valid label and a
valid qid but no feature fields makes `Instance::from_str` panic
(`unwrap` of `max_by_key` over an empty list), not return `Ok`/`Err`. -/
theorem c10_from_str_counterexample :
    instanceFromStr ("1 qid:2".toList) = none := rfl

/-! ## Claim C3: lemmas -/

theorem map_sum_set_count (l : List HistBin) :
    ∀ (j : ℕ) (b b' : HistBin), l[j]? = some b →
      ((l.set j b').map (fun x => x.count)).sum + b.count =
        (l.map (fun x => x.count)).sum + b'.count := by
  induction l with
  | nil => intro j b b' h; simp at h
  | cons a as ih =>
    intro j b b' h
    cases j with
    | zero =>
      simp only [List.getElem?_cons_zero, Option.some.injEq] at h
      subst h
      simp [List.set]
      omega
    | succ j =>
      simp only [List.getElem?_cons_succ] at h
      simp only [List.set, List.map_cons, List.sum_cons]
      have := ih j b b' h
      omega

theorem histAccum_count_sum (tm : ThresholdMap) (input : List (ℕ × ℚ × ℚ)) :
    ∀ (hist h' : List HistBin), histAccum tm input hist = some h' →
      (h'.map (fun b => b.count)).sum =
        (hist.map (fun b => b.count)).sum + input.length := by
  induction input with
  | nil =>
    intro hist h' h
    simp only [histAccum, Option.some.injEq] at h
    subst h
    simp
  | cons x rest ih =>
    intro hist h' h
    obtain ⟨id, fv, target⟩ := x
    unfold histAccum at h
    cases hj : tm.map[id]? with
    | none => simp only [hj] at h; exact Option.noConfusion h
    | some j =>
      simp only [hj] at h
      cases hb : hist[j]? with
      | none => simp only [hb] at h; exact Option.noConfusion h
      | some b =>
        simp only [hb] at h
        by_cases hle : fv ≤ b.threshold
        · rw [if_pos hle] at h
          have hstep := map_sum_set_count hist j b
            ⟨b.threshold, b.count + 1, b.sum + target, b.sumsq + target * target⟩ hb
          have hc : (⟨b.threshold, b.count + 1, b.sum + target,
              b.sumsq + target * target⟩ : HistBin).count = b.count + 1 := rfl
          rw [hc] at hstep
          have := ih _ _ h
          simp only [List.length_cons]
          omega
        · rw [if_neg hle] at h
          exact Option.noConfusion h

theorem histAccum_mem_nonneg (f : HistBin → ℚ) (P : ℚ → Prop)
    (hf : ∀ b t, P t → 0 ≤ f b →
      0 ≤ f ⟨b.threshold, b.count + 1, b.sum + t, b.sumsq + t * t⟩)
    (tm : ThresholdMap) (input : List (ℕ × ℚ × ℚ))
    (htargets : ∀ x ∈ input, P x.2.2) :
    ∀ (hist h' : List HistBin), (∀ b ∈ hist, 0 ≤ f b) →
      histAccum tm input hist = some h' → ∀ b ∈ h', 0 ≤ f b := by
  induction input with
  | nil =>
    intro hist h' hinv h
    simp only [histAccum, Option.some.injEq] at h
    subst h
    exact hinv
  | cons x rest ih =>
    intro hist h' hinv h
    obtain ⟨id, fv, target⟩ := x
    unfold histAccum at h
    cases hj : tm.map[id]? with
    | none => simp only [hj] at h; exact Option.noConfusion h
    | some j =>
      simp only [hj] at h
      cases hb : hist[j]? with
      | none => simp only [hb] at h; exact Option.noConfusion h
      | some b =>
        simp only [hb] at h
        by_cases hle : fv ≤ b.threshold
        · rw [if_pos hle] at h
          refine ih (fun x hx => htargets x (by simp [hx])) _ _ ?_ h
          intro y hy
          rcases List.mem_or_eq_of_mem_set hy with hmem | heq
          · exact hinv y hmem
          · subst heq
            exact hf b target (htargets (id, fv, target) (by simp))
              (hinv b (List.getElem?_mem hb))
        · rw [if_neg hle] at h
          exact Option.noConfusion h

theorem cumulate_mem_count_ge (l : List HistBin) :
    ∀ (c : ℕ) (s q : ℚ), ∀ y ∈ cumulate c s q l, c ≤ y.count := by
  induction l with
  | nil => intro c s q y hy; simp [cumulate] at hy
  | cons b rest ih =>
    intro c s q y hy
    simp only [cumulate, List.mem_cons] at hy
    rcases hy with hy | hy
    · subst hy; simp
    · have := ih (c + b.count) (s + b.sum) (q + b.sumsq) y hy
      omega

theorem cumulate_pairwise_count (l : List HistBin) :
    ∀ (c : ℕ) (s q : ℚ),
      List.Pairwise (fun a b => a.count ≤ b.count) (cumulate c s q l) := by
  induction l with
  | nil => intro c s q; simp [cumulate]
  | cons b rest ih =>
    intro c s q
    simp only [cumulate]
    refine List.Pairwise.cons ?_ (ih _ _ _)
    intro y hy
    have := cumulate_mem_count_ge rest (c + b.count) (s + b.sum) (q + b.sumsq) y hy
    simp
    omega

theorem cumulate_mem_sumsq_ge (l : List HistBin) (hl : ∀ b ∈ l, 0 ≤ b.sumsq) :
    ∀ (c : ℕ) (s q : ℚ), ∀ y ∈ cumulate c s q l, q ≤ y.sumsq := by
  induction l with
  | nil => intro c s q y hy; simp [cumulate] at hy
  | cons b rest ih =>
    intro c s q y hy
    have hb : 0 ≤ b.sumsq := hl b (by simp)
    simp only [cumulate, List.mem_cons] at hy
    rcases hy with hy | hy
    · subst hy; simp; linarith
    · have := ih (fun x hx => hl x (by simp [hx])) (c + b.count) (s + b.sum)
        (q + b.sumsq) y hy
      linarith

theorem cumulate_pairwise_sumsq (l : List HistBin) (hl : ∀ b ∈ l, 0 ≤ b.sumsq) :
    ∀ (c : ℕ) (s q : ℚ),
      List.Pairwise (fun a b => a.sumsq ≤ b.sumsq) (cumulate c s q l) := by
  induction l with
  | nil => intro c s q; simp [cumulate]
  | cons b rest ih =>
    intro c s q
    simp only [cumulate]
    refine List.Pairwise.cons ?_ (ih (fun x hx => hl x (by simp [hx])) _ _ _)
    intro y hy
    have := cumulate_mem_sumsq_ge rest (fun x hx => hl x (by simp [hx]))
      (c + b.count) (s + b.sum) (q + b.sumsq) y hy
    simp
    linarith

theorem cumulate_mem_sum_ge (l : List HistBin) (hl : ∀ b ∈ l, 0 ≤ b.sum) :
    ∀ (c : ℕ) (s q : ℚ), ∀ y ∈ cumulate c s q l, s ≤ y.sum := by
  induction l with
  | nil => intro c s q y hy; simp [cumulate] at hy
  | cons b rest ih =>
    intro c s q y hy
    have hb : 0 ≤ b.sum := hl b (by simp)
    simp only [cumulate, List.mem_cons] at hy
    rcases hy with hy | hy
    · subst hy; simp; linarith
    · have := ih (fun x hx => hl x (by simp [hx])) (c + b.count) (s + b.sum)
        (q + b.sumsq) y hy
      linarith

theorem cumulate_pairwise_sum (l : List HistBin) (hl : ∀ b ∈ l, 0 ≤ b.sum) :
    ∀ (c : ℕ) (s q : ℚ),
      List.Pairwise (fun a b => a.sum ≤ b.sum) (cumulate c s q l) := by
  induction l with
  | nil => intro c s q; simp [cumulate]
  | cons b rest ih =>
    intro c s q
    simp only [cumulate]
    refine List.Pairwise.cons ?_ (ih (fun x hx => hl x (by simp [hx])) _ _ _)
    intro y hy
    have := cumulate_mem_sum_ge rest (fun x hx => hl x (by simp [hx]))
      (c + b.count) (s + b.sum) (q + b.sumsq) y hy
    simp
    linarith

theorem cumulate_last_count (l : List HistBin) :
    ∀ (c : ℕ) (s q : ℚ), l ≠ [] →
      ((cumulate c s q l).getLast?.map (fun b => b.count)).getD 0 =
        c + (l.map (fun b => b.count)).sum := by
  induction l with
  | nil => intro c s q h; exact absurd rfl h
  | cons b rest ih =>
    intro c s q _
    cases rest with
    | nil => simp [cumulate]
    | cons b2 rest2 =>
      have hne : (b2 :: rest2) ≠ ([] : List HistBin) := by simp
      have hstep : cumulate c s q (b :: b2 :: rest2) =
          ⟨b.threshold, c + b.count, s + b.sum, q + b.sumsq⟩ ::
            cumulate (c + b.count) (s + b.sum) (q + b.sumsq) (b2 :: rest2) := rfl
      have htail : cumulate (c + b.count) (s + b.sum) (q + b.sumsq)
          (b2 :: rest2) =
          ⟨b2.threshold, c + b.count + b2.count, s + b.sum + b2.sum,
            q + b.sumsq + b2.sumsq⟩ ::
            cumulate (c + b.count + b2.count) (s + b.sum + b2.sum)
              (q + b.sumsq + b2.sumsq) rest2 := rfl
      rw [hstep, htail, List.getLast?_cons_cons, ← htail]
      rw [ih (c + b.count) (s + b.sum) (q + b.sumsq) hne]
      simp only [List.map_cons, List.sum_cons]
      omega

theorem map_count_init_zero (ts : List ℚ) :
    ((ts.map (fun t => (⟨t, 0, 0, 0⟩ : HistBin))).map
      (fun b => b.count)).sum = 0 := by
  induction ts with
  | nil => rfl
  | cons t rest ih => simpa using ih

/-! ## Claim C3: theorem, counterexample, witness -/

/-- C3 (amended): for every histogram `ThresholdMap::histogram` produces
without panicking, the cumulative count and the cumulative
sum-of-squares are non-decreasing in the bin index, the cumulative sum is
non-decreasing whenever all fed targets are nonnegative, and the last
bin's cumulative count equals the number of tuples fed in.  (For general
targets the cumulative sum need not be monotone — the targets are
lambdas, which are routinely negative; see the counterexample.) -/
theorem c3_histogram_cumulative (tm : ThresholdMap) (input : List (ℕ × ℚ × ℚ))
    (h : List HistBin) (hh : tm.histogram input = some h) :
    List.Pairwise (fun a b => a.count ≤ b.count) h ∧
    List.Pairwise (fun a b => a.sumsq ≤ b.sumsq) h ∧
    ((∀ x ∈ input, 0 ≤ x.2.2) →
      List.Pairwise (fun a b => a.sum ≤ b.sum) h) ∧
    (h.getLast?.map (fun b => b.count)).getD 0 = input.length := by
  unfold ThresholdMap.histogram at hh
  cases ha : histAccum tm input (tm.thresholds.map
      (fun t => (⟨t, 0, 0, 0⟩ : HistBin))) with
  | none => rw [ha] at hh; exact Option.noConfusion hh
  | some h1 =>
    rw [ha] at hh
    simp only [Option.map_some', Option.some.injEq] at hh
    subst hh
    have hsq : ∀ b ∈ h1, 0 ≤ b.sumsq := by
      refine histAccum_mem_nonneg (fun b => b.sumsq) (fun _ => True) ?_ tm input
        (fun x _ => trivial) _ _ ?_ ha
      · intro b t _ hb
        have := mul_self_nonneg t
        simp only
        linarith
      · intro b hb
        rcases List.mem_map.mp hb with ⟨t, _, rfl⟩
        simp
    refine ⟨cumulate_pairwise_count h1 0 0 0,
      cumulate_pairwise_sumsq h1 hsq 0 0 0, ?_, ?_⟩
    · intro htargets
      have hsum : ∀ b ∈ h1, 0 ≤ b.sum := by
        refine histAccum_mem_nonneg (fun b => b.sum) (fun t => 0 ≤ t) ?_ tm
          input htargets _ _ ?_ ha
        · intro b t ht hb
          simp only
          linarith
        · intro b hb
          rcases List.mem_map.mp hb with ⟨t, _, rfl⟩
          simp
      exact cumulate_pairwise_sum h1 hsum 0 0 0
    · have hcount := histAccum_count_sum tm input _ _ ha
      rw [map_count_init_zero] at hcount
      cases h1 with
      | nil =>
        simp only [List.map_nil, List.sum_nil] at hcount
        simp only [cumulate, List.getLast?_nil, Option.map_none',
          Option.getD_none]
        omega
      | cons b1 rest1 =>
        have := cumulate_last_count (b1 :: rest1) 0 0 0 (by simp)
        rw [this]
        omega

/-- Counterexample to C3 as stated: feeding a negative target (a lambda)
into the second bin makes the cumulative sum decrease between bins 0
and 1. -/
theorem c3_histogram_counterexample :
    tmNeg.histogram inputNeg = some histNeg ∧
    ¬ List.Pairwise (fun a b => a.sum ≤ b.sum) histNeg := by
  constructor
  · exact option_eq_some_getD _ [] (by with_unfolding_all exact of_decide_eq_true rfl)
  · with_unfolding_all exact of_decide_eq_true rfl

/-- Witness for C3 at the repository's own nine-value histogram fixture
(targets equal to the nonnegative feature values). -/
theorem c3_histogram_cumulative_witness :
    tmS3.histogram inputS4 = some histS4 ∧
    List.Pairwise (fun a b => a.count ≤ b.count) histS4 ∧
    List.Pairwise (fun a b => a.sumsq ≤ b.sumsq) histS4 ∧
    List.Pairwise (fun a b => a.sum ≤ b.sum) histS4 ∧
    (histS4.getLast?.map (fun b => b.count)).getD 0 = inputS4.length := by
  have hh : tmS3.histogram inputS4 = some histS4 :=
    option_eq_some_getD _ [] (by with_unfolding_all exact of_decide_eq_true rfl)
  have ht : ∀ x ∈ inputS4, 0 ≤ x.2.2 := by decide
  have hmain := c3_histogram_cumulative tmS3 inputS4 histS4 hh
  exact ⟨hh, hmain.1, hmain.2.1, hmain.2.2.1 ht, hmain.2.2.2⟩

/-! ## Claim C6: lemmas about the max_by selection -/

theorem foldl_maxRun (l : List (ℕ × ℚ × ℚ)) :
    ∀ a, l.foldl (fun acc x =>
      match acc with
      | none => some x
      | some m => if x.2.2 < m.2.2 then some m else some x) (some a) =
      some (maxRun a l) := by
  induction l with
  | nil => intro a; rfl
  | cons y ys ih =>
    intro a
    by_cases h : y.2.2 < a.2.2
    · simp only [List.foldl_cons, maxRun, if_pos h]
      exact ih a
    · simp only [List.foldl_cons, maxRun, if_neg h]
      exact ih y

theorem rustMaxBySnd_cons (x : ℕ × ℚ × ℚ) (l : List (ℕ × ℚ × ℚ)) :
    rustMaxBySnd (x :: l) = some (maxRun x l) := by
  unfold rustMaxBySnd
  simp only [List.foldl_cons]
  exact foldl_maxRun l x

theorem maxRun_mem (l : List (ℕ × ℚ × ℚ)) :
    ∀ a, maxRun a l = a ∨ maxRun a l ∈ l := by
  induction l with
  | nil => intro a; left; rfl
  | cons y ys ih =>
    intro a
    simp only [maxRun]
    by_cases h : y.2.2 < a.2.2
    · rw [if_pos h]
      rcases ih a with h1 | h1
      · left; exact h1
      · right; simp [h1]
    · rw [if_neg h]
      rcases ih y with h1 | h1
      · right; simp [h1]
      · right; simp [h1]

theorem maxRun_ge (l : List (ℕ × ℚ × ℚ)) :
    ∀ a, a.2.2 ≤ (maxRun a l).2.2 ∧ ∀ x ∈ l, x.2.2 ≤ (maxRun a l).2.2 := by
  induction l with
  | nil => intro a; exact ⟨le_refl _, by simp⟩
  | cons y ys ih =>
    intro a
    simp only [maxRun]
    by_cases h : y.2.2 < a.2.2
    · rw [if_pos h]
      refine ⟨(ih a).1, ?_⟩
      intro x hx
      rcases List.mem_cons.mp hx with hx | hx
      · subst hx; exact le_trans (le_of_lt h) (ih a).1
      · exact (ih a).2 x hx
    · rw [if_neg h]
      refine ⟨le_trans (le_of_not_lt h) (ih y).1, ?_⟩
      intro x hx
      rcases List.mem_cons.mp hx with hx | hx
      · subst hx; exact (ih x).1
      · exact (ih y).2 x hx

theorem maxRun_tie (l : List (ℕ × ℚ × ℚ)) :
    ∀ a, (∀ x ∈ l, a.1 < x.1) →
      List.Pairwise (fun p q => p.1 < q.1) l →
      ∀ x, (x = a ∨ x ∈ l) → x.2.2 = (maxRun a l).2.2 →
        x.1 ≤ (maxRun a l).1 := by
  induction l with
  | nil =>
    intro a _ _ x hx _
    rcases hx with hx | hx
    · subst hx; exact le_refl _
    · simp at hx
  | cons y ys ih =>
    intro a ha hp x hx heq
    have hpy : ∀ z ∈ ys, y.1 < z.1 := (List.pairwise_cons.mp hp).1
    have hpys : List.Pairwise (fun p q => p.1 < q.1) ys :=
      (List.pairwise_cons.mp hp).2
    simp only [maxRun] at heq ⊢
    by_cases h : y.2.2 < a.2.2
    · rw [if_pos h] at heq ⊢
      have hays : ∀ z ∈ ys, a.1 < z.1 := fun z hz => ha z (by simp [hz])
      rcases hx with hx | hx
      · exact ih a hays hpys x (Or.inl hx) heq
      · rcases List.mem_cons.mp hx with hx | hx
        · subst hx
          exfalso
          have h1 : x.2.2 ≤ (maxRun a ys).2.2 := le_of_eq heq
          have h2 : a.2.2 ≤ (maxRun a ys).2.2 := (maxRun_ge ys a).1
          rcases maxRun_mem ys a with hm | hm
          · rw [hm] at heq
            exact absurd heq (ne_of_lt h)
          · have := (maxRun_ge ys a).2
            -- x.2.2 < a.2.2 ≤ maxRun; contradiction with heq
            have hlt : x.2.2 < (maxRun a ys).2.2 := lt_of_lt_of_le h h2
            exact absurd heq (ne_of_lt hlt)
        · exact ih a hays hpys x (Or.inr hx) heq
    · rw [if_neg h] at heq ⊢
      have hyys : ∀ z ∈ ys, y.1 < z.1 := hpy
      rcases hx with hx | hx
      · subst hx
        -- x = a, maxRun seeded with y; a.2.2 ≤ y.2.2 ≤ maxRun
        have hay : x.1 < y.1 := ha y (by simp)
        have h1 : x.1 ≤ (maxRun y ys).1 := by
          rcases maxRun_mem ys y with hm | hm
          · rw [hm]; exact le_of_lt hay
          · have := hyys _ hm
            omega
        exact h1
      · rcases List.mem_cons.mp hx with hx | hx
        · subst hx
          exact ih x hyys hpys x (Or.inl rfl) heq
        · exact ih y hyys hpys x (Or.inr hx) heq

theorem splitCandidates_go_pairwise (s : TrainingSample) (minLeaf : ℕ) :
    ∀ (fids : List ℕ) (acc res : List (ℕ × ℚ × ℚ)),
      List.Pairwise (fun p q => p < q) fids →
      List.Pairwise (fun p q => p.1 < q.1) acc →
      (∀ c ∈ acc, ∀ f ∈ fids, c.1 < f) →
      fids.foldlM (fun acc fid => do
        let h ← s.training.feature_histogram fid s.indices
        pure (match bestSplit h minLeaf with
          | none => acc
          | some p => acc ++ [(fid, p.1, p.2)])) acc = some res →
      List.Pairwise (fun p q => p.1 < q.1) res := by
  intro fids
  induction fids with
  | nil =>
    intro acc res _ hacc _ h
    simp only [List.foldlM_nil] at h
    cases h
    exact hacc
  | cons fid rest ih =>
    intro acc res hp hacc hlt h
    rw [List.foldlM_cons] at h
    cases hh : s.training.feature_histogram fid s.indices with
    | none =>
      rw [hh] at h
      simp at h
    | some hist =>
      rw [hh] at h
      simp only [Option.bind_eq_bind, Option.some_bind, pure] at h
      have hpr : List.Pairwise (fun p q => p < q) rest :=
        (List.pairwise_cons.mp hp).2
      have hfr : ∀ f ∈ rest, fid < f := (List.pairwise_cons.mp hp).1
      cases hbs : bestSplit hist minLeaf with
      | none =>
        simp only [hbs] at h
        exact ih acc res hpr hacc
          (fun c hc f hf => hlt c hc f (by simp [hf])) h
      | some p =>
        simp only [hbs] at h
        refine ih (acc ++ [(fid, p.1, p.2)]) res hpr ?_ ?_ h
        · rw [List.pairwise_append]
          refine ⟨hacc, by simp, ?_⟩
          intro a ha b hb
          simp only [List.mem_singleton] at hb
          subst hb
          exact hlt a ha fid (by simp)
        · intro c hc f hf
          rcases List.mem_append.mp hc with hc | hc
          · exact hlt c hc f (by simp [hf])
          · simp only [List.mem_singleton] at hc
            subst hc
            exact hfr f hf

theorem candidates_pairwise (s : TrainingSample) (minLeaf : ℕ)
    (cands : List (ℕ × ℚ × ℚ)) (h : splitCandidates s minLeaf = some cands) :
    List.Pairwise (fun p q => p.1 < q.1) cands := by
  unfold splitCandidates at h
  exact splitCandidates_go_pairwise s minLeaf _ [] cands
    (List.pairwise_lt_range' 1 s.training.nfeatures) (by simp) (by simp) h

/-! ## Claim C6: theorem, counterexample, witness -/

/-- C6 (amended): when `TrainingSample::split` returns a split, the
returned score is the maximum over all per-feature best-split candidates,
and among the features attaining that maximum the returned feature id is
the HIGHEST (Rust's `Iterator::max_by` returns the last maximal element
of the fid-ascending candidate list), not the lowest claimed by the
specification. -/
theorem c6_split_max_highest_fid (s : TrainingSample) (minLeaf : ℕ)
    (cands : List (ℕ × ℚ × ℚ)) (fid : ℕ) (t sv : ℚ)
    (hc : splitCandidates s minLeaf = some cands)
    (hs : (s.split minLeaf).map (Option.map (fun r => (r.1, r.2.1, r.2.2.1))) =
      some (some (fid, t, sv))) :
    (fid, t, sv) ∈ cands ∧ (∀ c ∈ cands, c.2.2 ≤ sv) ∧
      (∀ c ∈ cands, c.2.2 = sv → c.1 ≤ fid) := by
  have hpw := candidates_pairwise s minLeaf cands hc
  unfold TrainingSample.split at hs
  by_cases h0 : minLeaf = 0
  · rw [if_pos h0] at hs
    simp at hs
  rw [if_neg h0] at hs
  by_cases hv : |s.variance| ≤ 1 / 1000000
  · rw [if_pos hv] at hs
    simp at hs
  rw [if_neg hv] at hs
  simp only [hc] at hs
  cases hr : rustMaxBySnd cands with
  | none =>
    simp only [hr] at hs
    simp at hs
  | some m =>
    obtain ⟨mf, mt, ms⟩ := m
    simp only [hr, Option.map_some'] at hs
    simp only [Option.some.injEq, Option.map_some', Prod.mk.injEq] at hs
    obtain ⟨hmf, hmt, hms⟩ := hs
    cases cands with
    | nil =>
      rw [rustMaxBySnd] at hr
      simp at hr
    | cons c0 rest =>
      rw [rustMaxBySnd_cons] at hr
      have hm : maxRun c0 rest = (mf, mt, ms) := by
        injection hr
      have hple : ∀ x ∈ rest, c0.1 < x.1 := (List.pairwise_cons.mp hpw).1
      have hprest : List.Pairwise (fun p q => p.1 < q.1) rest :=
        (List.pairwise_cons.mp hpw).2
      subst hmf hmt hms
      refine ⟨?_, ?_, ?_⟩
      · rcases maxRun_mem rest c0 with h1 | h1
        · rw [hm] at h1
          rw [← h1]
          simp
        · rw [hm] at h1
          exact List.mem_cons_of_mem _ h1
      · intro c hcm
        have hge := maxRun_ge rest c0
        rw [hm] at hge
        rcases List.mem_cons.mp hcm with h1 | h1
        · subst h1
          exact hge.1
        · exact hge.2 c h1
      · intro c hcm hceq
        have := maxRun_tie rest c0 hple hprest c ?_ ?_
        · rw [hm] at this
          exact this
        · rcases List.mem_cons.mp hcm with h1 | h1
          · exact Or.inl h1
          · exact Or.inr h1
        · rw [hm]
          exact hceq

/-- Counterexample to C6 as stated: over two identical feature columns
both features attain the same maximal split score 2, yet `split` returns
feature id 2, not the lowest id 1 (`max_by` keeps the last maximal
element). -/
theorem c6_split_counterexample :
    splitCandidates sampleTie 1 = some [(1, 0, 2), (2, 0, 2)] ∧
    (sampleTie.split 1).map (Option.map (fun r => r.1)) = some (some 2) := by
  constructor
  · with_unfolding_all exact of_decide_eq_true rfl
  · with_unfolding_all exact of_decide_eq_true rfl

/-- Witness for C6 at the two-identical-feature fixture. -/
theorem c6_split_max_highest_fid_witness :
    ((2 : ℕ), (0 : ℚ), (2 : ℚ)) ∈ [((1 : ℕ), (0 : ℚ), (2 : ℚ)), (2, 0, 2)] ∧
    (∀ c ∈ [((1 : ℕ), (0 : ℚ), (2 : ℚ)), (2, 0, 2)], c.2.2 ≤ 2) ∧
    (∀ c ∈ [((1 : ℕ), (0 : ℚ), (2 : ℚ)), (2, 0, 2)], c.2.2 = 2 → c.1 ≤ 2) := by
  have hc : splitCandidates sampleTie 1 = some [(1, 0, 2), (2, 0, 2)] := by
    with_unfolding_all exact of_decide_eq_true rfl
  have hs : (sampleTie.split 1).map
      (Option.map (fun r => (r.1, r.2.1, r.2.2.1))) = some (some (2, 0, 2)) := by
    with_unfolding_all exact of_decide_eq_true rfl
  exact c6_split_max_highest_fid sampleTie 1 _ 2 0 2 hc hs

/-! ## Claim C4: lemmas about dedup and the sorted value column -/

theorem dedupConsec_mem (l : List ℚ) : ∀ x, x ∈ dedupConsec l ↔ x ∈ l := by
  induction l with
  | nil => intro x; rfl
  | cons a rest ih =>
    intro x
    cases rest with
    | nil => rfl
    | cons b rest2 =>
      have hEq : dedupConsec (a :: b :: rest2) =
          if a = b then dedupConsec (b :: rest2)
          else a :: dedupConsec (b :: rest2) := rfl
      rw [hEq]
      by_cases h : a = b
      · rw [if_pos h]
        subst h
        rw [ih x]
        constructor
        · intro hm; exact List.mem_cons_of_mem _ hm
        · intro hm
          rcases List.mem_cons.mp hm with hm | hm
          · subst hm; simp
          · exact hm
      · rw [if_neg h]
        simp only [List.mem_cons]
        rw [ih x]
        simp [List.mem_cons]

theorem dedupConsec_ne_nil (l : List ℚ) (h : l ≠ []) : dedupConsec l ≠ [] := by
  induction l with
  | nil => exact absurd rfl h
  | cons a rest ih =>
    cases rest with
    | nil => simp [dedupConsec]
    | cons b rest2 =>
      have hEq : dedupConsec (a :: b :: rest2) =
          if a = b then dedupConsec (b :: rest2)
          else a :: dedupConsec (b :: rest2) := rfl
      rw [hEq]
      by_cases hab : a = b
      · rw [if_pos hab]
        exact ih (by simp)
      · rw [if_neg hab]
        simp

theorem dedupConsec_headD (l : List ℚ) : (dedupConsec l).headD 0 = l.headD 0 := by
  induction l with
  | nil => rfl
  | cons a rest ih =>
    cases rest with
    | nil => rfl
    | cons b rest2 =>
      have hEq : dedupConsec (a :: b :: rest2) =
          if a = b then dedupConsec (b :: rest2)
          else a :: dedupConsec (b :: rest2) := rfl
      rw [hEq]
      by_cases hab : a = b
      · rw [if_pos hab]
        rw [ih]
        simp [hab]
      · rw [if_neg hab]
        rfl

theorem dedupConsec_getLast (l : List ℚ) (h : l ≠ []) :
    (dedupConsec l).getLast? = l.getLast? := by
  induction l with
  | nil => exact absurd rfl h
  | cons a rest ih =>
    cases rest with
    | nil => rfl
    | cons b rest2 =>
      have hEq : dedupConsec (a :: b :: rest2) =
          if a = b then dedupConsec (b :: rest2)
          else a :: dedupConsec (b :: rest2) := rfl
      rw [hEq]
      by_cases hab : a = b
      · rw [if_pos hab]
        rw [ih (by simp), List.getLast?_cons_cons]
      · rw [if_neg hab]
        have hne := dedupConsec_ne_nil (b :: rest2) (by simp)
        obtain ⟨y, ys, hys⟩ := List.exists_cons_of_ne_nil hne
        rw [hys, List.getLast?_cons_cons, ← hys, ih (by simp),
          List.getLast?_cons_cons]

theorem dedupConsec_sorted (l : List ℚ) (h : List.Pairwise (· ≤ ·) l) :
    List.Pairwise (· < ·) (dedupConsec l) := by
  induction l with
  | nil => exact List.Pairwise.nil
  | cons a rest ih =>
    have hle : ∀ x ∈ rest, a ≤ x := (List.pairwise_cons.mp h).1
    have hrest : List.Pairwise (· ≤ ·) rest := (List.pairwise_cons.mp h).2
    cases rest with
    | nil => simp [dedupConsec]
    | cons b rest2 =>
      have hEq : dedupConsec (a :: b :: rest2) =
          if a = b then dedupConsec (b :: rest2)
          else a :: dedupConsec (b :: rest2) := rfl
      rw [hEq]
      by_cases hab : a = b
      · rw [if_pos hab]
        exact ih hrest
      · rw [if_neg hab]
        refine List.Pairwise.cons ?_ (ih hrest)
        intro y hy
        have hyin : y ∈ b :: rest2 := (dedupConsec_mem _ y).mp hy
        have hab2 : a < b := lt_of_le_of_ne (hle b (by simp)) hab
        rcases List.mem_cons.mp hyin with hy1 | hy1
        · subst hy1; exact hab2
        · have : b ≤ y := (List.pairwise_cons.mp hrest).1 y hy1
          exact lt_of_lt_of_le hab2 this

theorem sortedVals_pairwise (values : List ℚ) :
    List.Pairwise (· ≤ ·) (sortedVals values) := by
  have h := List.sorted_insertionSort (fun (a b : ℕ × ℚ) => a.2 ≤ b.2)
    values.enum
  unfold sortedVals sortIndexed
  exact List.pairwise_map.mpr h

theorem sortedVals_perm (values : List ℚ) :
    (sortedVals values).Perm values := by
  have h := List.perm_insertionSort (fun (a b : ℕ × ℚ) => a.2 ≤ b.2)
    values.enum
  have h2 := h.map Prod.snd
  rw [List.enum_map_snd] at h2
  exact h2

theorem head_le_mem (l : List ℚ) (h : List.Pairwise (· ≤ ·) l) :
    ∀ x ∈ l, l.headD 0 ≤ x := by
  cases l with
  | nil => intro x hx; simp at hx
  | cons a rest =>
    intro x hx
    rcases List.mem_cons.mp hx with hx | hx
    · subst hx; exact le_refl _
    · exact (List.pairwise_cons.mp h).1 x hx

theorem mem_le_getLast (l : List ℚ) (h : List.Pairwise (· ≤ ·) l) :
    ∀ x ∈ l, x ≤ l.getLast?.getD 0 := by
  induction l with
  | nil => intro x hx; simp at hx
  | cons a rest ih =>
    intro x hx
    cases rest with
    | nil =>
      simp only [List.mem_singleton] at hx
      subst hx
      simp
    | cons b rest2 =>
      rw [List.getLast?_cons_cons]
      have hrest : List.Pairwise (· ≤ ·) (b :: rest2) :=
        (List.pairwise_cons.mp h).2
      rcases List.mem_cons.mp hx with hx | hx
      · subst hx
        have hlast : (b :: rest2).getLast?.getD 0 ∈ b :: rest2 := by
          obtain ⟨y, hy⟩ := List.getLast?_isSome.mpr
            (by simp : (b :: rest2) ≠ []) |> Option.isSome_iff_exists.mp
          rw [hy]
          simp only [Option.getD_some]
          exact List.mem_of_mem_getLast? hy
        exact (List.pairwise_cons.mp h).1 _ hlast
      · exact ih hrest x hx

theorem headD_mem (l : List ℚ) (h : l ≠ []) : l.headD 0 ∈ l := by
  cases l with
  | nil => exact absurd rfl h
  | cons a rest => simp

theorem getLastD_mem (l : List ℚ) (h : l ≠ []) : l.getLast?.getD 0 ∈ l := by
  obtain ⟨y, hy⟩ := List.getLast?_isSome.mpr h |> Option.isSome_iff_exists.mp
  rw [hy]
  simp only [Option.getD_some]
  exact List.mem_of_mem_getLast? hy

/-! ## Claim C4: theorem and witness -/

/-- C4: for every value vector and bin budget `B`, the constructed
threshold sequence is the ascending deduplicated values followed by the
sentinel when at most `B` distinct values exist, and otherwise the `B`
evenly spaced points `min + k·(max-min)/B`, `k = 0..B-1`, followed by the
sentinel; in both cases its length is at most `B + 1`.  The deduplicated
column is strictly ascending, has exactly the distinct input values, and
its head/last are the minimum/maximum of the values.  (The sentinel is
the source's `std::f64::MAX`, the spec's pseudo-infinity.) -/
theorem c4_thresholds (values : List ℚ) (B : ℕ) :
    ((dedupConsec (sortedVals values)).length ≤ B →
      ThresholdMap.mkThresholds (sortedVals values) B =
        dedupConsec (sortedVals values) ++ [f64Max]) ∧
    (B < (dedupConsec (sortedVals values)).length →
      ThresholdMap.mkThresholds (sortedVals values) B =
        (List.range B).map (fun (n : ℕ) =>
          (dedupConsec (sortedVals values)).headD 0 + (n : ℚ) *
            (((dedupConsec (sortedVals values)).getLast?.getD 0 -
              (dedupConsec (sortedVals values)).headD 0) / (B : ℚ))) ++
          [f64Max]) ∧
    (ThresholdMap.mkThresholds (sortedVals values) B).length ≤ B + 1 ∧
    List.Pairwise (· < ·) (dedupConsec (sortedVals values)) ∧
    (∀ x, x ∈ dedupConsec (sortedVals values) ↔ x ∈ values) ∧
    (values ≠ [] →
      (dedupConsec (sortedVals values)).headD 0 ∈ values ∧
      (∀ x ∈ values, (dedupConsec (sortedVals values)).headD 0 ≤ x) ∧
      (dedupConsec (sortedVals values)).getLast?.getD 0 ∈ values ∧
      (∀ x ∈ values, x ≤ (dedupConsec (sortedVals values)).getLast?.getD 0)) := by
  have hsorted := sortedVals_pairwise values
  have hperm := sortedVals_perm values
  have hmem : ∀ x, x ∈ dedupConsec (sortedVals values) ↔ x ∈ values := by
    intro x
    rw [dedupConsec_mem _ x]
    exact hperm.mem_iff
  have hdsorted := dedupConsec_sorted _ hsorted
  have hbr1 : (dedupConsec (sortedVals values)).length ≤ B →
      ThresholdMap.mkThresholds (sortedVals values) B =
        dedupConsec (sortedVals values) ++ [f64Max] := by
    intro h
    have hnot : ¬(B < (dedupConsec (sortedVals values)).length) := by omega
    simp only [ThresholdMap.mkThresholds, if_neg hnot]
  have hbr2 : B < (dedupConsec (sortedVals values)).length →
      ThresholdMap.mkThresholds (sortedVals values) B =
        (List.range B).map (fun (n : ℕ) =>
          (dedupConsec (sortedVals values)).headD 0 + (n : ℚ) *
            (((dedupConsec (sortedVals values)).getLast?.getD 0 -
              (dedupConsec (sortedVals values)).headD 0) / (B : ℚ))) ++
          [f64Max] := by
    intro h
    simp only [ThresholdMap.mkThresholds, if_pos h]
  refine ⟨hbr1, hbr2, ?_, hdsorted, hmem, ?_⟩
  · by_cases h : B < (dedupConsec (sortedVals values)).length
    · rw [hbr2 h]
      simp only [List.length_append, List.length_map, List.length_range,
        List.length_singleton]
      omega
    · rw [hbr1 (by omega)]
      simp only [List.length_append, List.length_singleton]
      omega
  · intro hne
    have hvne : sortedVals values ≠ [] := by
      intro h0
      have := hperm.length_eq
      rw [h0] at this
      simp only [List.length_nil] at this
      exact hne (List.length_eq_zero.mp this.symm)
    have hdne := dedupConsec_ne_nil _ hvne
    have hhead : (dedupConsec (sortedVals values)).headD 0 ∈ values :=
      (hmem _).mp (headD_mem _ hdne)
    have hlastmem : (dedupConsec (sortedVals values)).getLast?.getD 0 ∈ values :=
      (hmem _).mp (getLastD_mem _ hdne)
    refine ⟨hhead, ?_, hlastmem, ?_⟩
    · intro x hx
      have hx2 : x ∈ sortedVals values := hperm.mem_iff.mpr hx
      rw [dedupConsec_headD]
      exact head_le_mem _ hsorted x hx2
    · intro x hx
      have hx2 : x ∈ sortedVals values := hperm.mem_iff.mpr hx
      rw [dedupConsec_getLast _ hvne]
      exact mem_le_getLast _ hsorted x hx2

/-- Witness for C4 at the repository's nine-value fixture with `B = 3`:
the grid branch applies (nine distinct values exceed three bins). -/
theorem c4_thresholds_witness :
    3 < (dedupConsec (sortedVals valsS3)).length ∧
    ThresholdMap.mkThresholds (sortedVals valsS3) 3 =
      (List.range 3).map (fun (n : ℕ) =>
        (dedupConsec (sortedVals valsS3)).headD 0 + (n : ℚ) *
          (((dedupConsec (sortedVals valsS3)).getLast?.getD 0 -
            (dedupConsec (sortedVals valsS3)).headD 0) / (3 : ℚ))) ++
        [f64Max] := by
  have h : 3 < (dedupConsec (sortedVals valsS3)).length := by decide
  exact ⟨h, (c4_thresholds valsS3 3).2.1 h⟩

/-! ## Claim C5: lemmas about the assignment scan -/

theorem mem_takeWhile_sorted (t : ℚ) :
    ∀ (l : List (ℕ × ℚ)), List.Pairwise (fun a b => a.2 ≤ b.2) l →
      ∀ x ∈ l, x.2 ≤ t → x ∈ l.takeWhile (fun p => decide (p.2 ≤ t)) := by
  intro l
  induction l with
  | nil => intro _ x hx; simp at hx
  | cons y ys ih =>
    intro hp x hx hxt
    by_cases hy : y.2 ≤ t
    · rw [List.takeWhile_cons_of_pos (by simpa using hy)]
      rcases List.mem_cons.mp hx with hx | hx
      · subst hx; simp
      · exact List.mem_cons_of_mem _
          (ih (List.pairwise_cons.mp hp).2 x hx hxt)
    · exfalso
      rcases List.mem_cons.mp hx with hx | hx
      · subst hx; exact hy hxt
      · exact hy (le_trans ((List.pairwise_cons.mp hp).1 x hx) hxt)

theorem mem_dropWhile_not (t : ℚ) (l : List (ℕ × ℚ)) (x : ℕ × ℚ)
    (hx : x ∈ l) (hxt : ¬(x.2 ≤ t)) :
    x ∈ l.dropWhile (fun p => decide (p.2 ≤ t)) := by
  have hsplit := List.takeWhile_append_dropWhile
    (fun p => decide (p.2 ≤ t)) l
  rw [← hsplit] at hx
  rcases List.mem_append.mp hx with hx | hx
  · exfalso
    have := List.mem_takeWhile_imp hx
    simp at this
    exact hxt this
  · exact hx

theorem assignAux_mem (ts : List ℚ) :
    ∀ (j : ℕ) (vs : List (ℕ × ℚ)) (i : ℕ) (v : ℚ),
      List.Pairwise (fun a b => a.2 ≤ b.2) vs → (i, v) ∈ vs →
      (∃ t ∈ ts, v ≤ t) →
      (i, j + ts.findIdx (fun t => decide (v ≤ t))) ∈ assignAux ts j vs := by
  induction ts with
  | nil =>
    intro j vs i v _ _ hex
    simp at hex
  | cons t ts ih =>
    intro j vs i v hp hmem hex
    simp only [assignAux, List.mem_append]
    by_cases hv : v ≤ t
    · left
      have hfi : List.findIdx (fun x => decide (v ≤ x)) (t :: ts) = 0 := by
        rw [List.findIdx_cons]
        simp [hv]
      rw [hfi]
      have hintake := mem_takeWhile_sorted t vs hp (i, v) hmem hv
      exact List.mem_map.mpr ⟨(i, v), hintake, rfl⟩
    · right
      have hfi : List.findIdx (fun x => decide (v ≤ x)) (t :: ts) =
          List.findIdx (fun x => decide (v ≤ x)) ts + 1 := by
        rw [List.findIdx_cons]
        simp [hv]
      rw [hfi]
      have hdrop := mem_dropWhile_not t vs (i, v) hmem hv
      have hpd : List.Pairwise (fun a b => a.2 ≤ b.2)
          (vs.dropWhile (fun p => decide (p.2 ≤ t))) :=
        hp.sublist (List.dropWhile_sublist _)
      have hex2 : ∃ t2 ∈ ts, v ≤ t2 := by
        obtain ⟨t2, ht2, hvt2⟩ := hex
        rcases List.mem_cons.mp ht2 with h1 | h1
        · subst h1; exact absurd hvt2 hv
        · exact ⟨t2, h1, hvt2⟩
      have := ih (j + 1) _ i v hpd hdrop hex2
      have harith : j + 1 + List.findIdx (fun x => decide (v ≤ x)) ts =
          j + (List.findIdx (fun x => decide (v ≤ x)) ts + 1) := by omega
      rw [harith] at this
      exact this

theorem assignAux_keys_sublist (ts : List ℚ) :
    ∀ (j : ℕ) (vs : List (ℕ × ℚ)),
      ((assignAux ts j vs).map Prod.fst).Sublist (vs.map Prod.fst) := by
  induction ts with
  | nil => intro j vs; simp [assignAux]
  | cons t ts ih =>
    intro j vs
    simp only [assignAux, List.map_append, List.map_map]
    have h1 : ((vs.takeWhile (fun p => decide (p.2 ≤ t))).map
        (Prod.fst ∘ fun p => (p.1, j))) =
        (vs.takeWhile (fun p => decide (p.2 ≤ t))).map Prod.fst := by
      rfl
    rw [h1]
    have h2 := ih (j + 1) (vs.dropWhile (fun p => decide (p.2 ≤ t)))
    have h3 := h2.append_left
      ((vs.takeWhile (fun p => decide (p.2 ≤ t))).map Prod.fst)
    have h4 : (vs.takeWhile (fun p => decide (p.2 ≤ t))).map Prod.fst ++
        (vs.dropWhile (fun p => decide (p.2 ≤ t))).map Prod.fst =
        vs.map Prod.fst := by
      rw [← List.map_append, List.takeWhile_append_dropWhile]
    rw [h4] at h3
    exact h3

theorem foldl_set_length (assigns : List (ℕ × ℕ)) :
    ∀ (m : List ℕ),
      (assigns.foldl (fun m p => m.set p.1 p.2) m).length = m.length := by
  induction assigns with
  | nil => intro m; rfl
  | cons p rest ih =>
    intro m
    simp only [List.foldl_cons]
    rw [ih]
    exact List.length_set m p.1 p.2

theorem foldl_set_getD_not_mem (assigns : List (ℕ × ℕ)) :
    ∀ (m : List ℕ) (i : ℕ), i ∉ assigns.map Prod.fst →
      (assigns.foldl (fun m p => m.set p.1 p.2) m).getD i 0 = m.getD i 0 := by
  induction assigns with
  | nil => intro m i _; rfl
  | cons p rest ih =>
    intro m i hni
    simp only [List.map_cons, List.mem_cons] at hni
    push_neg at hni
    simp only [List.foldl_cons]
    rw [ih _ i hni.2]
    rw [List.getD_eq_getElem?_getD, List.getD_eq_getElem?_getD,
      List.getElem?_set]
    rw [if_neg (Ne.symm hni.1)]

theorem foldl_set_getD_mem (assigns : List (ℕ × ℕ)) :
    ∀ (m : List ℕ) (i ti : ℕ), (assigns.map Prod.fst).Nodup →
      (i, ti) ∈ assigns → i < m.length →
      (assigns.foldl (fun m p => m.set p.1 p.2) m).getD i 0 = ti := by
  induction assigns with
  | nil => intro m i ti _ hmem _; simp at hmem
  | cons p rest ih =>
    intro m i ti hnd hmem hlen
    simp only [List.map_cons, List.nodup_cons] at hnd
    simp only [List.foldl_cons]
    rcases List.mem_cons.mp hmem with hm | hm
    · have hpi : p.1 = i := by rw [← hm]
      have hni : i ∉ rest.map Prod.fst := by
        rw [← hpi]
        exact hnd.1
      rw [foldl_set_getD_not_mem rest _ i hni]
      rw [List.getD_eq_getElem?_getD, List.getElem?_set]
      rw [if_pos hpi, if_pos (hpi ▸ hlen)]
      rw [← hm]
      rfl
    · exact ih _ i ti hnd.2 hm (by rw [List.length_set]; exact hlen)

theorem sortIndexed_perm_enum (values : List ℚ) :
    (sortIndexed values).Perm values.enum :=
  List.perm_insertionSort (fun (a b : ℕ × ℚ) => a.2 ≤ b.2) values.enum

theorem sortIndexed_keys_nodup (values : List ℚ) :
    ((sortIndexed values).map Prod.fst).Nodup := by
  have hperm := (sortIndexed_perm_enum values).map Prod.fst
  rw [List.enum_map_fst] at hperm
  exact hperm.nodup_iff.mpr (List.nodup_range _)

theorem sortIndexed_sorted (values : List ℚ) :
    List.Pairwise (fun (a b : ℕ × ℚ) => a.2 ≤ b.2) (sortIndexed values) :=
  List.sorted_insertionSort (fun (a b : ℕ × ℚ) => a.2 ≤ b.2) values.enum

theorem mem_sortIndexed (values : List ℚ) (i : ℕ) (h : i < values.length) :
    (i, values.getD i 0) ∈ sortIndexed values := by
  rw [(sortIndexed_perm_enum values).mem_iff, List.mem_enum_iff_getElem?]
  rw [List.getD_eq_getElem values 0 h]
  exact List.getElem?_eq_getElem h

theorem f64Max_mem_mkThresholds (sv : List ℚ) (B : ℕ) :
    f64Max ∈ ThresholdMap.mkThresholds sv B := by
  unfold ThresholdMap.mkThresholds
  simp

/-! ## Claim C5: theorem and witness -/

/-- C5: for every `ThresholdMap` built from a value vector (of finite
doubles, i.e. values not exceeding `f64::MAX`), `map.len()` equals the
number of input values, and for every instance index `i` the value of
instance `i` is at most `thresholds[map[i]]`, with `map[i]` the smallest
bin index satisfying that inequality. -/
theorem c5_threshold_map (values : List ℚ) (B : ℕ)
    (hb : ∀ v ∈ values, v ≤ f64Max) :
    (ThresholdMap.new values B).map.length = values.length ∧
    ∀ i, i < values.length →
      values.getD i 0 ≤ (ThresholdMap.new values B).thresholds.getD
        ((ThresholdMap.new values B).map.getD i 0) 0 ∧
      ∀ j, j < (ThresholdMap.new values B).map.getD i 0 →
        ¬(values.getD i 0 ≤ (ThresholdMap.new values B).thresholds.getD j 0) := by
  have hts : (ThresholdMap.new values B).thresholds =
      ThresholdMap.mkThresholds (sortedVals values) B := rfl
  have hmap : (ThresholdMap.new values B).map =
      (assignAux (ThresholdMap.mkThresholds (sortedVals values) B) 0
        (sortIndexed values)).foldl (fun m p => m.set p.1 p.2)
        (List.replicate values.length 0) := rfl
  constructor
  · rw [hmap, foldl_set_length, List.length_replicate]
  · intro i hi
    have hvmem : values.getD i 0 ∈ values := by
      rw [List.getD_eq_getElem values 0 hi]
      exact List.getElem_mem hi
    have hex : ∃ t ∈ ThresholdMap.mkThresholds (sortedVals values) B,
        values.getD i 0 ≤ t :=
      ⟨f64Max, f64Max_mem_mkThresholds _ _, hb _ hvmem⟩
    have hassign := assignAux_mem
      (ThresholdMap.mkThresholds (sortedVals values) B) 0
      (sortIndexed values) i (values.getD i 0)
      (sortIndexed_sorted values) (mem_sortIndexed values i hi) hex
    rw [zero_add] at hassign
    have hkeysnd : ((assignAux (ThresholdMap.mkThresholds (sortedVals values) B)
        0 (sortIndexed values)).map Prod.fst).Nodup :=
      (sortIndexed_keys_nodup values).sublist
        (assignAux_keys_sublist _ 0 (sortIndexed values))
    have hmapi : (ThresholdMap.new values B).map.getD i 0 =
        (ThresholdMap.mkThresholds (sortedVals values) B).findIdx
          (fun t => decide (values.getD i 0 ≤ t)) := by
      rw [hmap]
      exact foldl_set_getD_mem _ _ i _ hkeysnd hassign
        (by rw [List.length_replicate]; exact hi)
    have hflt : (ThresholdMap.mkThresholds (sortedVals values) B).findIdx
        (fun t => decide (values.getD i 0 ≤ t)) <
        (ThresholdMap.mkThresholds (sortedVals values) B).length := by
      refine List.findIdx_lt_length_of_exists ?_
      obtain ⟨t, ht, hvt⟩ := hex
      exact ⟨t, ht, by simpa using hvt⟩
    constructor
    · rw [hts, hmapi]
      rw [List.getD_eq_getElem _ 0 hflt]
      have := @List.findIdx_getElem _ (fun t => decide (values.getD i 0 ≤ t))
        (ThresholdMap.mkThresholds (sortedVals values) B) hflt
      simpa using this
    · intro j hj
      rw [hmapi] at hj
      have hjlen : j < (ThresholdMap.mkThresholds (sortedVals values) B).length :=
        lt_trans hj hflt
      rw [hts, List.getD_eq_getElem _ 0 hjlen]
      have := List.not_of_lt_findIdx hj
      simpa using this

/-- Witness for C5 at the repository's nine-value fixture with 3 bins
(the repository's own `test_threshold_map` expects
`map = [2, 3, 1, 1, 0, 3, 3, 2, 2]`). -/
theorem c5_threshold_map_witness :
    (ThresholdMap.new valsS3 3).map.length = valsS3.length ∧
    (valsS3.getD 1 0 ≤ (ThresholdMap.new valsS3 3).thresholds.getD
      ((ThresholdMap.new valsS3 3).map.getD 1 0) 0 ∧
    ∀ j, j < (ThresholdMap.new valsS3 3).map.getD 1 0 →
      ¬(valsS3.getD 1 0 ≤ (ThresholdMap.new valsS3 3).thresholds.getD j 0)) := by
  have hb : ∀ v ∈ valsS3, v ≤ f64Max := by decide
  have h := c5_threshold_map valsS3 3 hb
  exact ⟨h.1, h.2 1 (by decide)⟩

/-! ## Claim C1: the inner break is equivalent to pair exclusion -/

/-- When every remaining enumerated pair partner is beyond the truncation
bound, the spec-style inner loop performs no update at all. -/
theorem innerSpec_all_skip (k : ℕ) (ex : ℚ → ℚ) (dm : ℕ → ℕ → ℚ) (m : ℕ)
    (e1 : ℕ × ℚ × ℚ) (l : List (ℕ × (ℕ × ℚ × ℚ))) (st : List ℚ × List ℚ)
    (h : ∀ p ∈ l, k < m ∧ k < p.1) :
    innerSpec k ex dm m e1 l st = st := by
  induction l generalizing st with
  | nil => rfl
  | cons hd rest ih =>
    obtain ⟨n, e2⟩ := hd
    have hEq : innerSpec k ex dm m e1 ((n, e2) :: rest) st =
        innerSpec k ex dm m e1 rest
          (if ¬(k < m ∧ k < n) ∧ e2.2.1 < e1.2.1 then
            pairUpdate ex |dm m n| e1.1 e2.1 e1.2.2 e2.2.2 st
           else st) := rfl
    rw [hEq, if_neg (fun hc => hc.1 (h (n, e2) (List.mem_cons_self _ _)))]
    exact ih st (fun p hp => h p (List.mem_cons_of_mem _ hp))

/-- On an enumerated list whose indices are non-decreasing, the source's
inner loop with `break` computes exactly what the spec's filtered
pair-iteration computes: once the break condition holds it holds for all
later positions, so breaking and skipping coincide. -/
theorem innerCode_eq_innerSpec (k : ℕ) (ex : ℚ → ℚ) (dm : ℕ → ℕ → ℚ) (m : ℕ)
    (e1 : ℕ × ℚ × ℚ) (l : List (ℕ × (ℕ × ℚ × ℚ))) (st : List ℚ × List ℚ)
    (hl : l.Pairwise (fun a b => a.1 ≤ b.1)) :
    innerCode k ex dm m e1 l st = innerSpec k ex dm m e1 l st := by
  induction l generalizing st with
  | nil => rfl
  | cons hd rest ih =>
    obtain ⟨n, e2⟩ := hd
    obtain ⟨hhd, hrest⟩ := List.pairwise_cons.1 hl
    have hcEq : innerCode k ex dm m e1 ((n, e2) :: rest) st =
        if k < m ∧ k < n then st
        else innerCode k ex dm m e1 rest
          (if e1.2.1 ≤ e2.2.1 then st
           else pairUpdate ex |dm m n| e1.1 e2.1 e1.2.2 e2.2.2 st) := rfl
    have hsEq : innerSpec k ex dm m e1 ((n, e2) :: rest) st =
        innerSpec k ex dm m e1 rest
          (if ¬(k < m ∧ k < n) ∧ e2.2.1 < e1.2.1 then
            pairUpdate ex |dm m n| e1.1 e2.1 e1.2.2 e2.2.2 st
           else st) := rfl
    rw [hcEq, hsEq]
    by_cases hbr : k < m ∧ k < n
    · rw [if_pos hbr, if_neg (fun hc => hc.1 hbr)]
      exact (innerSpec_all_skip k ex dm m e1 rest st
        (fun p hp => ⟨hbr.1, lt_of_lt_of_le hbr.2 (hhd p hp)⟩)).symm
    · rw [if_neg hbr]
      by_cases hle : e1.2.1 ≤ e2.2.1
      · rw [if_pos hle, if_neg (fun hc => absurd hc.2 (not_lt.2 hle))]
        exact ih st hrest
      · rw [if_neg hle, if_pos ⟨hbr, lt_of_not_le hle⟩]
        exact ih _ hrest

/-- Per-query: the double loop with `break` equals the spec's filtered
double loop, since `List.enum` indices are strictly increasing. -/
theorem processQuery_eq_spec (M : Measure) (ex : ℚ → ℚ) (d : List Instance)
    (ms : List ℚ) (idxs : List ℕ) (st : List ℚ × List ℚ) :
    processQuery M ex d ms idxs st = processQuerySpec M ex d ms idxs st := by
  simp only [processQuery, processQuerySpec]
  have h1 : ((rankList d ms idxs).enum.map Prod.fst).Pairwise (· < ·) := by
    rw [List.enum_map_fst]
    exact List.pairwise_lt_range _
  have h2 : (rankList d ms idxs).enum.Pairwise
      (fun a b : ℕ × ℕ × ℚ × ℚ => a.1 ≤ b.1) :=
    (List.pairwise_map.1 h1).imp (fun h => le_of_lt h)
  have hfun : (fun (st : List ℚ × List ℚ) (me : ℕ × ℕ × ℚ × ℚ) =>
      innerCode M.k ex
        (M.delta ((rankList d ms idxs).map (fun e => e.2.1))) me.1 me.2
        (rankList d ms idxs).enum st) =
      (fun st me =>
      innerSpec M.k ex
        (M.delta ((rankList d ms idxs).map (fun e => e.2.1))) me.1 me.2
        (rankList d ms idxs).enum st) :=
    funext fun st => funext fun me =>
      innerCode_eq_innerSpec M.k ex _ me.1 me.2 _ st h2
  rw [hfun]

/-- C1: `update_lambdas_weights` zeroes both arrays and, per query, adds
exactly the contribution of every rank pair (m, n) that is not excluded
by the truncation rule and has `label[m] > label[n]`: the source's inner
`break` is equivalent to skipping the excluded pairs, because the
enumeration indices only grow. -/
theorem c1_update_lambdas_weights (M : Measure) (ex : ℚ → ℚ)
    (ts : TrainingSet) :
    updateLambdasWeights M ex ts = updateLambdasWeightsSpec M ex ts := by
  simp only [updateLambdasWeights, updateLambdasWeightsSpec]
  have hfun : (fun (st : List ℚ × List ℚ) (q : ℕ × List ℕ) =>
      processQuery M ex ts.dataset ts.model_scores q.2 st) =
      (fun st q => processQuerySpec M ex ts.dataset ts.model_scores q.2 st) :=
    funext fun st => funext fun q =>
      processQuery_eq_spec M ex ts.dataset ts.model_scores q.2 st
  rw [hfun]

/-! ## Claim C9: per-query and total lambda sums vanish -/

/-- Reading any position of an all-zero vector gives zero. -/
theorem getD_map_zero (l : List ℚ) (i : ℕ) :
    (l.map (fun _ => (0 : ℚ))).getD i 0 = 0 := by
  induction l generalizing i with
  | nil => rfl
  | cons a l ih =>
    cases i with
    | zero => rfl
    | succ i => exact ih i

/-- A group sum over an all-zero vector is zero. -/
theorem sumAt_zero (g : List ℕ) (l : List ℚ) :
    sumAt g (l.map (fun _ => (0 : ℚ))) = 0 := by
  induction g with
  | nil => rfl
  | cons i g ih =>
    simp only [sumAt, List.map_cons, List.sum_cons] at ih ⊢
    rw [getD_map_zero, ih, add_zero]

/-- `getD` after `set` at the written (in-bounds) index. -/
theorem getD_set_self (l : List ℚ) (i : ℕ) (v : ℚ) (h : i < l.length) :
    (l.set i v).getD i 0 = v := by
  rw [List.getD_eq_getElem?_getD, List.getElem?_set_self',
    List.getElem?_eq_getElem h]
  rfl

/-- `getD` after `set` at a different index. -/
theorem getD_set_ne (l : List ℚ) (i j : ℕ) (v : ℚ) (h : i ≠ j) :
    (l.set i v).getD j 0 = l.getD j 0 := by
  rw [List.getD_eq_getElem?_getD, List.getElem?_set_ne h,
    List.getD_eq_getElem?_getD]

/-- Setting a position outside the group leaves the group sum alone. -/
theorem sumAt_set_not_mem (g : List ℕ) (l : List ℚ) (i : ℕ) (v : ℚ)
    (h : i ∉ g) : sumAt g (l.set i v) = sumAt g l := by
  induction g with
  | nil => rfl
  | cons j g ih =>
    simp only [sumAt, List.map_cons, List.sum_cons] at ih ⊢
    rw [getD_set_ne l i j v (fun he => h (he ▸ List.mem_cons_self j g)),
      ih (fun hm => h (List.mem_cons_of_mem j hm))]

/-- Setting an in-bounds position inside a duplicate-free group shifts the
group sum by the difference of new and old entry. -/
theorem sumAt_set_mem (g : List ℕ) (l : List ℚ) (i : ℕ) (v : ℚ)
    (hnd : g.Nodup) (hm : i ∈ g) (hb : i < l.length) :
    sumAt g (l.set i v) = sumAt g l + v - l.getD i 0 := by
  induction g with
  | nil => exact absurd hm (List.not_mem_nil i)
  | cons j g ih =>
    obtain ⟨hj, hnd'⟩ := List.nodup_cons.1 hnd
    simp only [sumAt, List.map_cons, List.sum_cons] at ih ⊢
    rcases List.mem_cons.1 hm with he | hm'
    · subst he
      rw [getD_set_self l i v hb]
      have hrest := sumAt_set_not_mem g l i v hj
      simp only [sumAt] at hrest
      rw [hrest]
      ring
    · have hij : i ≠ j := fun he => hj (he ▸ hm')
      rw [getD_set_ne l i j v hij, ih hnd' hm']
      ring

/-- `pairUpdate` preserves the lambda-vector length. -/
theorem pairUpdate_fst_length (ex : ℚ → ℚ) (dv : ℚ) (i1 i2 : ℕ) (s1 s2 : ℚ)
    (st : List ℚ × List ℚ) :
    (pairUpdate ex dv i1 i2 s1 s2 st).1.length = st.1.length := by
  simp [pairUpdate]

/-- A pair update with both indices inside a duplicate-free in-bounds
group leaves that group's lambda sum unchanged: `+λ` at one index cancels
`-λ` at the other. -/
theorem pairUpdate_sumAt_mem (ex : ℚ → ℚ) (dv : ℚ) (i1 i2 : ℕ) (s1 s2 : ℚ)
    (st : List ℚ × List ℚ) (g : List ℕ) (hnd : g.Nodup)
    (h1 : i1 ∈ g) (h2 : i2 ∈ g) (hb1 : i1 < st.1.length)
    (hb2 : i2 < st.1.length) :
    sumAt g (pairUpdate ex dv i1 i2 s1 s2 st).1 = sumAt g st.1 := by
  simp only [pairUpdate]
  set lam := dv * (1 / (1 + ex (s1 - s2))) with hlam
  set l1 := st.1.set i1 (st.1.getD i1 0 + lam) with hl1
  have hlen1 : l1.length = st.1.length := by rw [hl1, List.length_set]
  rw [sumAt_set_mem g l1 i2 _ hnd h2 (hlen1 ▸ hb2),
    sumAt_set_mem g st.1 i1 _ hnd h1 hb1]
  ring

/-- A pair update with both indices outside the group leaves that group's
lambda sum unchanged. -/
theorem pairUpdate_sumAt_not_mem (ex : ℚ → ℚ) (dv : ℚ) (i1 i2 : ℕ)
    (s1 s2 : ℚ) (st : List ℚ × List ℚ) (g : List ℕ)
    (h1 : i1 ∉ g) (h2 : i2 ∉ g) :
    sumAt g (pairUpdate ex dv i1 i2 s1 s2 st).1 = sumAt g st.1 := by
  simp only [pairUpdate]
  rw [sumAt_set_not_mem g _ i2 _ h2, sumAt_set_not_mem g _ i1 _ h1]

/-- The inner pair loop preserves the lambda-vector length. -/
theorem innerCode_fst_length (k : ℕ) (ex : ℚ → ℚ) (dm : ℕ → ℕ → ℚ) (m : ℕ)
    (e1 : ℕ × ℚ × ℚ) (l : List (ℕ × (ℕ × ℚ × ℚ))) (st : List ℚ × List ℚ) :
    (innerCode k ex dm m e1 l st).1.length = st.1.length := by
  induction l generalizing st with
  | nil => rfl
  | cons hd rest ih =>
    obtain ⟨n, e2⟩ := hd
    have hEq : innerCode k ex dm m e1 ((n, e2) :: rest) st =
        if k < m ∧ k < n then st
        else innerCode k ex dm m e1 rest
          (if e1.2.1 ≤ e2.2.1 then st
           else pairUpdate ex |dm m n| e1.1 e2.1 e1.2.2 e2.2.2 st) := rfl
    rw [hEq]
    by_cases hbr : k < m ∧ k < n
    · rw [if_pos hbr]
    · rw [if_neg hbr]
      by_cases hle : e1.2.1 ≤ e2.2.1
      · rw [if_pos hle, ih]
      · rw [if_neg hle, ih, pairUpdate_fst_length]

/-- The inner pair loop with row index `e1.1` and all partner indices
inside a duplicate-free in-bounds group preserves that group's lambda
sum. -/
theorem innerCode_sumAt_mem (k : ℕ) (ex : ℚ → ℚ) (dm : ℕ → ℕ → ℚ) (m : ℕ)
    (e1 : ℕ × ℚ × ℚ) (l : List (ℕ × (ℕ × ℚ × ℚ))) (st : List ℚ × List ℚ)
    (g : List ℕ) (hnd : g.Nodup) (hb : ∀ i ∈ g, i < st.1.length)
    (h1 : e1.1 ∈ g) (hl : ∀ p ∈ l, p.2.1 ∈ g) :
    sumAt g (innerCode k ex dm m e1 l st).1 = sumAt g st.1 := by
  induction l generalizing st with
  | nil => rfl
  | cons hd rest ih =>
    obtain ⟨n, e2⟩ := hd
    have hEq : innerCode k ex dm m e1 ((n, e2) :: rest) st =
        if k < m ∧ k < n then st
        else innerCode k ex dm m e1 rest
          (if e1.2.1 ≤ e2.2.1 then st
           else pairUpdate ex |dm m n| e1.1 e2.1 e1.2.2 e2.2.2 st) := rfl
    rw [hEq]
    by_cases hbr : k < m ∧ k < n
    · rw [if_pos hbr]
    · rw [if_neg hbr]
      by_cases hle : e1.2.1 ≤ e2.2.1
      · rw [if_pos hle]
        exact ih st hb (fun p hp => hl p (List.mem_cons_of_mem _ hp))
      · rw [if_neg hle]
        have h2 : e2.1 ∈ g := hl (n, e2) (List.mem_cons_self _ _)
        have hpu := pairUpdate_sumAt_mem ex |dm m n| e1.1 e2.1 e1.2.2 e2.2.2
          st g hnd h1 h2 (hb _ h1) (hb _ h2)
        have hbl : ∀ i ∈ g,
            i < (pairUpdate ex |dm m n| e1.1 e2.1 e1.2.2 e2.2.2 st).1.length :=
          fun i hi => (pairUpdate_fst_length ex _ e1.1 e2.1 _ _ st).symm ▸
            hb i hi
        rw [ih _ hbl (fun p hp => hl p (List.mem_cons_of_mem _ hp)), hpu]

/-- The inner pair loop with all touched indices outside the group
preserves that group's lambda sum. -/
theorem innerCode_sumAt_not_mem (k : ℕ) (ex : ℚ → ℚ) (dm : ℕ → ℕ → ℚ)
    (m : ℕ) (e1 : ℕ × ℚ × ℚ) (l : List (ℕ × (ℕ × ℚ × ℚ)))
    (st : List ℚ × List ℚ) (g : List ℕ)
    (h1 : e1.1 ∉ g) (hl : ∀ p ∈ l, p.2.1 ∉ g) :
    sumAt g (innerCode k ex dm m e1 l st).1 = sumAt g st.1 := by
  induction l generalizing st with
  | nil => rfl
  | cons hd rest ih =>
    obtain ⟨n, e2⟩ := hd
    have hEq : innerCode k ex dm m e1 ((n, e2) :: rest) st =
        if k < m ∧ k < n then st
        else innerCode k ex dm m e1 rest
          (if e1.2.1 ≤ e2.2.1 then st
           else pairUpdate ex |dm m n| e1.1 e2.1 e1.2.2 e2.2.2 st) := rfl
    rw [hEq]
    by_cases hbr : k < m ∧ k < n
    · rw [if_pos hbr]
    · rw [if_neg hbr]
      by_cases hle : e1.2.1 ≤ e2.2.1
      · rw [if_pos hle]
        exact ih st (fun p hp => hl p (List.mem_cons_of_mem _ hp))
      · rw [if_neg hle]
        have h2 : e2.1 ∉ g := hl (n, e2) (List.mem_cons_self _ _)
        rw [ih _ (fun p hp => hl p (List.mem_cons_of_mem _ hp)),
          pairUpdate_sumAt_not_mem ex _ e1.1 e2.1 _ _ st g h1 h2]

/-- Every first component of a rank-list entry is one of the query's
instance indices. -/
theorem rankList_fst_mem (d : List Instance) (ms : List ℚ) (idxs : List ℕ)
    (p : ℕ × ℚ × ℚ) (hp : p ∈ rankList d ms idxs) : p.1 ∈ idxs := by
  have hperm := List.perm_insertionSort
    (fun (a b : ℕ × ℚ × ℚ) => b.2.2 ≤ a.2.2)
    (idxs.map (fun i => (i, (d.getD i default).label, ms.getD i 0)))
  have hp' : p ∈ idxs.map (fun i => (i, (d.getD i default).label, ms.getD i 0)) :=
    hperm.mem_iff.1 hp
  obtain ⟨i, hi, he⟩ := List.mem_map.1 hp'
  rw [← he]
  exact hi

/-- An entry of `List.enum` carries an element of the underlying list. -/
theorem mem_of_mem_enum {α : Type} (l : List α) (p : ℕ × α)
    (hp : p ∈ l.enum) : p.2 ∈ l := by
  have : p.2 ∈ l.enum.map Prod.snd := List.mem_map.2 ⟨p, hp, rfl⟩
  rwa [List.enum_map_snd] at this

/-- The double loop's outer fold preserves the lambda-vector length. -/
theorem foldl_innerCode_length (k : ℕ) (ex : ℚ → ℚ) (dm : ℕ → ℕ → ℚ)
    (rlE : List (ℕ × (ℕ × ℚ × ℚ))) (L : List (ℕ × (ℕ × ℚ × ℚ)))
    (st : List ℚ × List ℚ) :
    (L.foldl (fun st me => innerCode k ex dm me.1 me.2 rlE st) st).1.length =
      st.1.length := by
  induction L generalizing st with
  | nil => rfl
  | cons hd rest ih => rw [List.foldl_cons, ih, innerCode_fst_length]

/-- The double loop's outer fold preserves a duplicate-free in-bounds
group's lambda sum when every enumerated row and partner index lies in
the group. -/
theorem foldl_innerCode_sumAt_mem (k : ℕ) (ex : ℚ → ℚ) (dm : ℕ → ℕ → ℚ)
    (rlE : List (ℕ × (ℕ × ℚ × ℚ))) (L : List (ℕ × (ℕ × ℚ × ℚ)))
    (st : List ℚ × List ℚ) (g : List ℕ) (hnd : g.Nodup)
    (hb : ∀ i ∈ g, i < st.1.length)
    (hL : ∀ me ∈ L, me.2.1 ∈ g) (hrl : ∀ p ∈ rlE, p.2.1 ∈ g) :
    sumAt g (L.foldl (fun st me => innerCode k ex dm me.1 me.2 rlE st) st).1 =
      sumAt g st.1 := by
  induction L generalizing st with
  | nil => rfl
  | cons hd rest ih =>
    rw [List.foldl_cons]
    have hb' : ∀ i ∈ g, i < (innerCode k ex dm hd.1 hd.2 rlE st).1.length :=
      fun i hi => (innerCode_fst_length k ex dm hd.1 hd.2 rlE st).symm ▸ hb i hi
    rw [ih _ hb' (fun me hm => hL me (List.mem_cons_of_mem _ hm)),
      innerCode_sumAt_mem k ex dm hd.1 hd.2 rlE st g hnd hb
        (hL hd (List.mem_cons_self _ _)) hrl]

/-- The double loop's outer fold preserves any group's lambda sum when
every enumerated row and partner index lies outside the group. -/
theorem foldl_innerCode_sumAt_not_mem (k : ℕ) (ex : ℚ → ℚ) (dm : ℕ → ℕ → ℚ)
    (rlE : List (ℕ × (ℕ × ℚ × ℚ))) (L : List (ℕ × (ℕ × ℚ × ℚ)))
    (st : List ℚ × List ℚ) (g : List ℕ)
    (hL : ∀ me ∈ L, me.2.1 ∉ g) (hrl : ∀ p ∈ rlE, p.2.1 ∉ g) :
    sumAt g (L.foldl (fun st me => innerCode k ex dm me.1 me.2 rlE st) st).1 =
      sumAt g st.1 := by
  induction L generalizing st with
  | nil => rfl
  | cons hd rest ih =>
    rw [List.foldl_cons,
      ih _ (fun me hm => hL me (List.mem_cons_of_mem _ hm)),
      innerCode_sumAt_not_mem k ex dm hd.1 hd.2 rlE st g
        (hL hd (List.mem_cons_self _ _)) hrl]

/-- `processQuery` preserves the lambda-vector length. -/
theorem processQuery_fst_length (M : Measure) (ex : ℚ → ℚ)
    (d : List Instance) (ms : List ℚ) (idxs : List ℕ)
    (st : List ℚ × List ℚ) :
    (processQuery M ex d ms idxs st).1.length = st.1.length := by
  simp only [processQuery]
  exact foldl_innerCode_length _ _ _ _ _ st

/-- `processQuery` over a query whose index list is contained in a
duplicate-free in-bounds group preserves that group's lambda sum. -/
theorem processQuery_sumAt_sub (M : Measure) (ex : ℚ → ℚ)
    (d : List Instance) (ms : List ℚ) (idxs : List ℕ)
    (st : List ℚ × List ℚ) (g : List ℕ) (hnd : g.Nodup)
    (hb : ∀ i ∈ g, i < st.1.length) (hsub : ∀ j ∈ idxs, j ∈ g) :
    sumAt g (processQuery M ex d ms idxs st).1 = sumAt g st.1 := by
  simp only [processQuery]
  have hrl : ∀ p ∈ (rankList d ms idxs).enum, p.2.1 ∈ g := fun p hp =>
    hsub _ (rankList_fst_mem d ms idxs p.2 (mem_of_mem_enum _ p hp))
  exact foldl_innerCode_sumAt_mem _ _ _ _ _ st g hnd hb hrl hrl

/-- `processQuery` over a query whose index list is disjoint from a group
preserves that group's lambda sum. -/
theorem processQuery_sumAt_disj (M : Measure) (ex : ℚ → ℚ)
    (d : List Instance) (ms : List ℚ) (idxs : List ℕ)
    (st : List ℚ × List ℚ) (g : List ℕ) (hdisj : ∀ j ∈ idxs, j ∉ g) :
    sumAt g (processQuery M ex d ms idxs st).1 = sumAt g st.1 := by
  simp only [processQuery]
  have hrl : ∀ p ∈ (rankList d ms idxs).enum, p.2.1 ∉ g := fun p hp =>
    hdisj _ (rankList_fst_mem d ms idxs p.2 (mem_of_mem_enum _ p hp))
  exact foldl_innerCode_sumAt_not_mem _ _ _ _ _ st g hrl hrl

/-- Every index emitted by the `query_iter` scan is below the end of the
scanned range. -/
theorem qiGo_bound (ys : List Instance) (qid start len : ℕ) :
    ∀ p ∈ qiGo ys qid start len, ∀ j ∈ p.2, j < start + len + ys.length := by
  induction ys generalizing qid start len with
  | nil =>
    intro p hp j hj
    simp only [qiGo, List.mem_singleton] at hp
    subst hp
    simpa using (List.mem_range'_1.1 hj).2
  | cons y ys ih =>
    intro p hp j hj
    simp only [qiGo] at hp
    by_cases hq : y.qid = qid
    · rw [if_pos hq] at hp
      have := ih qid start (len + 1) p hp j hj
      simpa [Nat.add_assoc, Nat.add_comm, Nat.add_left_comm] using this
    · rw [if_neg hq] at hp
      rcases List.mem_cons.1 hp with he | hp'
      · subst he
        have := (List.mem_range'_1.1 hj).2
        simp only [List.length_cons]
        omega
      · have := ih y.qid (start + len) 1 p hp' j hj
        simp only [List.length_cons]
        omega

/-- Every index emitted by the `query_iter` scan is at least the scan's
start position. -/
theorem qiGo_lb (ys : List Instance) (qid start len : ℕ) :
    ∀ p ∈ qiGo ys qid start len, ∀ j ∈ p.2, start ≤ j := by
  induction ys generalizing qid start len with
  | nil =>
    intro p hp j hj
    simp only [qiGo, List.mem_singleton] at hp
    subst hp
    exact (List.mem_range'_1.1 hj).1
  | cons y ys ih =>
    intro p hp j hj
    simp only [qiGo] at hp
    by_cases hq : y.qid = qid
    · rw [if_pos hq] at hp
      exact ih qid start (len + 1) p hp j hj
    · rw [if_neg hq] at hp
      rcases List.mem_cons.1 hp with he | hp'
      · subst he
        exact (List.mem_range'_1.1 hj).1
      · have := ih y.qid (start + len) 1 p hp' j hj
        omega

/-- Each query group emitted by the scan is duplicate-free (it is a
contiguous index range). -/
theorem qiGo_nodup (ys : List Instance) (qid start len : ℕ) :
    ∀ p ∈ qiGo ys qid start len, p.2.Nodup := by
  induction ys generalizing qid start len with
  | nil =>
    intro p hp
    simp only [qiGo, List.mem_singleton] at hp
    subst hp
    exact List.nodup_range' start len 1 Nat.one_pos
  | cons y ys ih =>
    intro p hp
    simp only [qiGo] at hp
    by_cases hq : y.qid = qid
    · rw [if_pos hq] at hp
      exact ih qid start (len + 1) p hp
    · rw [if_neg hq] at hp
      rcases List.mem_cons.1 hp with he | hp'
      · subst he
        exact List.nodup_range' start len 1 Nat.one_pos
      · exact ih y.qid (start + len) 1 p hp'

/-- Distinct query groups emitted by the scan are index-disjoint: the
scan walks the positions left to right, closing each range before the
next one starts. -/
theorem qiGo_disj (ys : List Instance) (qid start len : ℕ) :
    (qiGo ys qid start len).Pairwise (fun a b => ∀ j ∈ a.2, j ∉ b.2) := by
  induction ys generalizing qid start len with
  | nil => simp [qiGo]
  | cons y ys ih =>
    simp only [qiGo]
    by_cases hq : y.qid = qid
    · rw [if_pos hq]
      exact ih qid start (len + 1)
    · rw [if_neg hq]
      refine List.pairwise_cons.2 ⟨?_, ih y.qid (start + len) 1⟩
      intro p hp j hj hjp
      have hup : j < start + len := (List.mem_range'_1.1 hj).2
      have hlo : start + len ≤ j := qiGo_lb ys y.qid (start + len) 1 p hp j hjp
      omega

/-- Every index of every group of `query_iter` is a valid dataset
position. -/
theorem queryIter_bound (d : List Instance) :
    ∀ p ∈ queryIter d 0, ∀ j ∈ p.2, j < d.length := by
  intro p hp j hj
  cases d with
  | nil => simp [queryIter] at hp
  | cons x xs =>
    have := qiGo_bound xs x.qid 0 1 p hp j hj
    simpa [Nat.add_comm] using this

/-- Every group of `query_iter` is duplicate-free. -/
theorem queryIter_nodup (d : List Instance) :
    ∀ p ∈ queryIter d 0, p.2.Nodup := by
  intro p hp
  cases d with
  | nil => simp [queryIter] at hp
  | cons x xs => exact qiGo_nodup xs x.qid 0 1 p hp

/-- Distinct groups of `query_iter` are index-disjoint. -/
theorem queryIter_disj (d : List Instance) :
    (queryIter d 0).Pairwise (fun a b => ∀ j ∈ a.2, j ∉ b.2) := by
  cases d with
  | nil => simp [queryIter]
  | cons x xs => exact qiGo_disj xs x.qid 0 1

/-- The per-query fold preserves the lambda-vector length. -/
theorem foldl_queries_length (M : Measure) (ex : ℚ → ℚ) (d : List Instance)
    (ms : List ℚ) (L : List (ℕ × List ℕ)) (st : List ℚ × List ℚ) :
    (L.foldl (fun st q => processQuery M ex d ms q.2 st) st).1.length =
      st.1.length := by
  induction L generalizing st with
  | nil => rfl
  | cons hd rest ih => rw [List.foldl_cons, ih, processQuery_fst_length]

/-- The per-query fold preserves the lambda sum over a group disjoint
from every processed query's index list. -/
theorem foldl_queries_preserve (M : Measure) (ex : ℚ → ℚ) (d : List Instance)
    (ms : List ℚ) (L : List (ℕ × List ℕ)) (st : List ℚ × List ℚ) (g : List ℕ)
    (h : ∀ q ∈ L, ∀ j ∈ q.2, j ∉ g) :
    sumAt g (L.foldl (fun st q => processQuery M ex d ms q.2 st) st).1 =
      sumAt g st.1 := by
  induction L generalizing st with
  | nil => rfl
  | cons hd rest ih =>
    rw [List.foldl_cons, ih _ (fun q hq => h q (List.mem_cons_of_mem _ hq)),
      processQuery_sumAt_disj M ex d ms hd.2 st g
        (h hd (List.mem_cons_self _ _))]

/-- Folding `processQuery` over pairwise-disjoint, duplicate-free,
in-bounds query groups keeps every group's lambda sum at zero when it
starts at zero. -/
theorem foldl_queries_zero (M : Measure) (ex : ℚ → ℚ) (d : List Instance)
    (ms : List ℚ) (L : List (ℕ × List ℕ)) (st : List ℚ × List ℚ)
    (hnd : ∀ q ∈ L, q.2.Nodup) (hb : ∀ q ∈ L, ∀ j ∈ q.2, j < st.1.length)
    (hdisj : L.Pairwise (fun a b => ∀ j ∈ a.2, j ∉ b.2))
    (hz : ∀ q ∈ L, sumAt q.2 st.1 = 0) :
    ∀ q ∈ L,
      sumAt q.2 (L.foldl (fun st q => processQuery M ex d ms q.2 st) st).1 =
        0 := by
  induction L generalizing st with
  | nil => intro q hq; exact absurd hq (List.not_mem_nil q)
  | cons q0 rest ih =>
    obtain ⟨hhd, hrest⟩ := List.pairwise_cons.1 hdisj
    intro q hq
    rw [List.foldl_cons]
    have hlen' : (processQuery M ex d ms q0.2 st).1.length = st.1.length :=
      processQuery_fst_length M ex d ms q0.2 st
    rcases List.mem_cons.1 hq with he | hq'
    · subst he
      rw [foldl_queries_preserve M ex d ms rest _ q.2
          (fun q' hq' j hj hjg => hhd q' hq' j hjg hj),
        processQuery_sumAt_sub M ex d ms q.2 st q.2
          (hnd q (List.mem_cons_self _ _)) (hb q (List.mem_cons_self _ _))
          (fun j hj => hj)]
      exact hz q (List.mem_cons_self _ _)
    · refine ih _ (fun q' hq'' => hnd q' (List.mem_cons_of_mem _ hq''))
        (fun q' hq'' j hj => hlen' ▸ hb q' (List.mem_cons_of_mem _ hq'') j hj)
        hrest ?_ q hq'
      intro q' hq''
      rw [processQuery_sumAt_disj M ex d ms q0.2 st q'.2
          (fun j hj => hhd q' hq'' j hj)]
      exact hz q' (List.mem_cons_of_mem _ hq'')

/-- The whole-vector sum is the group sum over all positions. -/
theorem sumAt_range (l : List ℚ) : sumAt (List.range l.length) l = l.sum := by
  induction l with
  | nil => rfl
  | cons a l ih =>
    simp only [sumAt, List.length_cons, List.range_succ_eq_map,
      List.map_cons, List.sum_cons, List.map_map]
    simp only [sumAt] at ih
    have hcomp : ((fun i => (a :: l).getD i 0) ∘ Nat.succ) =
        fun i => l.getD i 0 := funext fun i => rfl
    rw [hcomp, ih]
    rfl

/-- The per-query fold over in-bounds groups preserves the whole-vector
lambda sum. -/
theorem foldl_queries_sum (M : Measure) (ex : ℚ → ℚ) (d : List Instance)
    (ms : List ℚ) (L : List (ℕ × List ℕ)) (st : List ℚ × List ℚ)
    (hb : ∀ q ∈ L, ∀ j ∈ q.2, j < st.1.length) :
    (L.foldl (fun st q => processQuery M ex d ms q.2 st) st).1.sum =
      st.1.sum := by
  induction L generalizing st with
  | nil => rfl
  | cons q0 rest ih =>
    rw [List.foldl_cons]
    have hlen' : (processQuery M ex d ms q0.2 st).1.length = st.1.length :=
      processQuery_fst_length M ex d ms q0.2 st
    rw [ih _ (fun q hq j hj => hlen' ▸ hb q (List.mem_cons_of_mem _ hq) j hj)]
    have hps := processQuery_sumAt_sub M ex d ms q0.2 st
      (List.range st.1.length) (List.nodup_range _)
      (fun i hi => List.mem_range.1 hi)
      (fun j hj => List.mem_range.2 (hb q0 (List.mem_cons_self _ _) j hj))
    rw [← sumAt_range (processQuery M ex d ms q0.2 st).1, hlen', hps,
      sumAt_range]

/-- The sum of an all-zero vector is zero. -/
theorem sum_map_zero (l : List ℚ) : (l.map (fun _ => (0 : ℚ))).sum = 0 := by
  induction l with
  | nil => rfl
  | cons a l ih => simp only [List.map_cons, List.sum_cons, ih, add_zero]

/-- C9: after `update_lambdas_weights`, the lambdas of each query group
sum to zero in exact rational arithmetic (every pair contribution adds
`+λ` to one instance and `-λ` to another instance of the same query), and
consequently the sum of all lambdas over the whole training set is zero.
The hypothesis states that the lambda vector covers the dataset, which
`TrainingSet::new` guarantees. -/
theorem c9_lambdas_zero_sum (M : Measure) (ex : ℚ → ℚ) (ts : TrainingSet)
    (hlen : ts.dataset.length ≤ ts.lambdas.length) :
    (∀ q ∈ queryIter ts.dataset 0,
      sumAt q.2 (updateLambdasWeights M ex ts).lambdas = 0) ∧
    (updateLambdasWeights M ex ts).lambdas.sum = 0 := by
  have hst : (updateLambdasWeights M ex ts).lambdas =
      ((queryIter ts.dataset 0).foldl
        (fun st q => processQuery M ex ts.dataset ts.model_scores q.2 st)
        (ts.lambdas.map (fun _ => (0 : ℚ)),
          ts.weights.map (fun _ => (0 : ℚ)))).1 := rfl
  have hlen0 : (ts.lambdas.map (fun _ => (0 : ℚ)),
      ts.weights.map (fun _ => (0 : ℚ))).1.length = ts.lambdas.length :=
    List.length_map _ _
  have hb : ∀ q ∈ queryIter ts.dataset 0, ∀ j ∈ q.2,
      j < (ts.lambdas.map (fun _ => (0 : ℚ)),
        ts.weights.map (fun _ => (0 : ℚ))).1.length := by
    intro q hq j hj
    rw [hlen0]
    exact lt_of_lt_of_le (queryIter_bound ts.dataset q hq j hj) hlen
  constructor
  · intro q hq
    rw [hst]
    exact foldl_queries_zero M ex ts.dataset ts.model_scores
      (queryIter ts.dataset 0) _
      (queryIter_nodup ts.dataset) hb (queryIter_disj ts.dataset)
      (fun q' _ => sumAt_zero q'.2 ts.lambdas) q hq
  · rw [hst,
      foldl_queries_sum M ex ts.dataset ts.model_scores
        (queryIter ts.dataset 0) _ hb]
    exact sum_map_zero ts.lambdas

/-- Witness for C9 on the two-query fixture `tsTwoQ` with the constant
swap-delta measure and a constant stand-in for `exp`. -/
theorem c9_lambdas_zero_sum_witness :
    tsTwoQ.dataset.length ≤ tsTwoQ.lambdas.length ∧
    ((∀ q ∈ queryIter tsTwoQ.dataset 0,
      sumAt q.2 (updateLambdasWeights exMeasure exExp tsTwoQ).lambdas = 0) ∧
    (updateLambdasWeights exMeasure exExp tsTwoQ).lambdas.sum = 0) :=
  ⟨by decide, c9_lambdas_zero_sum exMeasure exExp tsTwoQ (by decide)⟩
